import Mathlib

/-!
# The virtualized tree component of the debugger front end

A shallow embedding of `packages/devtools-components/src/tree.js` (class `Tree`):
the depth-first traversal (`_dfs`, `_dfsFromRoots`), auto-expansion
(`_autoExpand`), the viewport window (`calculateSpaces`, `calculateSpace`,
`updateTraversal`) and keyboard navigation (`_onKeyDown` and the `_focus*Node`
handlers), followed by the properties proved about them.

Modelling conventions.

* An item is an opaque handle; it is modelled by a natural number standing for
  the identity of a JavaScript object.  Every item is truthy and none is
  `undefined`; `===` on items and `Set.prototype.has` are equality of identity.
* JavaScript recursion that the language does not bound (`_dfs`, `autoExpand`)
  takes a fuel argument; running out of fuel is the outcome `outOfFuel`, and the
  theorems state how much fuel makes the run finish.
* An uncaught `TypeError` (calling an absent callback, reading a property of
  `undefined`) is the outcome `typeError`.
* Calls of caller-supplied callbacks and of DOM methods are recorded in a log,
  in the order in which they are made.
* Numbers are integers (exact for JavaScript numbers in the safe-integer range);
  `Math.floor(a / b)` is `Int.fdiv a b`.
* A function wrapped in `oncePerAnimationFrame` is modelled by its body, run on
  the state in which the key was pressed: one key press, one frame.
-/

namespace Tree

/-- An item of the tree: the identity of a caller-defined object. -/
abbrev Item := Nat

/-- The constant `AUTO_EXPAND_DEPTH`. -/
def AUTO_EXPAND_DEPTH : Nat := 0

/-- The constant `NUMBER_OF_EXTRA_ITEMS`. -/
def NUMBER_OF_EXTRA_ITEMS : Int := 50

/-- One element of a traversal: the object `{ item, depth }`. -/
structure Entry where
  item : Item
  depth : Nat
  deriving DecidableEq, Repr

/-- How a run ends: normally with a value, with an uncaught `TypeError`, or
because the fuel of the model ran out. -/
inductive Outcome (σ : Type) where
  | done (s : σ)
  | typeError
  | outOfFuel
  deriving DecidableEq, Repr

/-- The loop `for (let i = 0; i < length; i++) body(xs[i])`, threading the
mutable state through the iterations. -/
def forEach {α σ : Type} (body : α → σ → Outcome σ) : List α → σ → Outcome σ
  | [], s => Outcome.done s
  | x :: xs, s =>
    match body x s with
    | Outcome.done s' => forEach body xs s'
    | Outcome.typeError => Outcome.typeError
    | Outcome.outOfFuel => Outcome.outOfFuel

/-- The props of `Tree` that the modelled methods read.  `getRoots` is the array
that `getRoots()` returns; an optional callback is recorded by whether it was
supplied.  The defaults are those of `defaultProps`, optional props absent. -/
structure Props where
  getRoots : List Item
  getChildren : Item → List Item
  getParent : Item → Option Item
  isExpanded : Item → Bool
  focused : Option Item := none
  autoExpandDepth : Nat := AUTO_EXPAND_DEPTH
  autoExpandAll : Bool := true
  isExpandable : Option (Item → Bool) := none
  itemHeight : Option Int := none
  onFocus : Bool := false
  onExpand : Bool := false
  onCollapse : Bool := false
  onActivate : Bool := false

/-! ## Traversal engine -/

/-- The test `nextDepth > maxDepth`; the default `maxDepth = Infinity` is
`none`. -/
def exceeds (nextDepth : Nat) : Option Nat → Bool
  | none => false
  | some maxDepth => decide (maxDepth < nextDepth)

/-- The method `Tree._dfs(item, maxDepth, traversal, _depth, props)`: pushes the entry of
`item` on `traversal` and, when the item is expanded and the next depth is
within `maxDepth`, runs itself on every child in order. -/
def _dfs (props : Props) (maxDepth : Option Nat) :
    Nat → Item → List Entry → Nat → Outcome (List Entry)
  | 0, _, _, _ => Outcome.outOfFuel
  | fuel + 1, item, traversal, _depth =>
    let traversal := traversal ++ [⟨item, _depth⟩]
    if !props.isExpanded item then Outcome.done traversal
    else
      let nextDepth := _depth + 1
      if exceeds nextDepth maxDepth then Outcome.done traversal
      else
        forEach (fun child trav => _dfs props maxDepth fuel child trav nextDepth)
          (props.getChildren item) traversal

/-- The method `Tree._dfsFromRoots(props, maxDepth)`. -/
def _dfsFromRoots (fuel : Nat) (props : Props) (maxDepth : Option Nat) :
    Outcome (List Entry) :=
  forEach (fun root trav => _dfs props maxDepth fuel root trav 0) props.getRoots []

/-! ## Auto-expansion -/

/-- What auto-expansion changes: the set `this.state.seen`, and the log of the
calls `this.props.onExpand(item)` it has made, oldest first. -/
structure AutoExpandState where
  seen : Finset Item
  expandCalls : List Item

/-- The state of a freshly constructed component: `seen: new Set()`. -/
def AutoExpandState.initial : AutoExpandState := ⟨∅, []⟩

/-- The closure `autoExpand(item, currentDepth)` inside `Tree._autoExpand`.
Calling `this.props.onExpand` when that optional prop is absent is a
`TypeError`. -/
def autoExpand (props : Props) :
    Nat → Item → Nat → AutoExpandState → Outcome AutoExpandState
  | 0, _, _, _ => Outcome.outOfFuel
  | fuel + 1, item, currentDepth, st =>
    if currentDepth ≥ props.autoExpandDepth ∨ item ∈ st.seen then Outcome.done st
    else if !props.onExpand then Outcome.typeError
    else
      let st : AutoExpandState :=
        { seen := insert item st.seen, expandCalls := st.expandCalls ++ [item] }
      forEach (fun child s => autoExpand props fuel child (currentDepth + 1) s)
        (props.getChildren item) st

/-- The method `Tree._autoExpand()`. -/
def _autoExpand (fuel : Nat) (props : Props) (st : AutoExpandState) :
    Outcome AutoExpandState :=
  if props.autoExpandDepth = 0 then Outcome.done st
  else if props.autoExpandAll then
    forEach (fun root s => autoExpand props fuel root 0 s) props.getRoots st
  else
    match props.getRoots with
    | [] => Outcome.done st
    | root :: _ => autoExpand props fuel root 0 st

/-- A sequence of `_autoExpand` runs on one component instance, one per element
of `runs`: the props (and with them the forest) of each run are arbitrary. -/
def autoExpandRuns (fuel : Nat) (runs : List Props) (st : AutoExpandState) :
    Outcome AutoExpandState :=
  forEach (fun props s => _autoExpand fuel props s) runs st

/-! ## Viewport windower -/

/-- The scroll container `this.parent`, as far as the window computation reads
it.  `clientHeight` is a non-negative integer by the DOM. -/
structure ScrollParent where
  clientHeight : Nat
  scrollTop : Int

/-- The object `{ topSpace, bottomSpace, start, end }` that `calculateSpace`
returns. -/
structure Space where
  topSpace : Int
  bottomSpace : Int
  start : Int
  end_ : Int
  deriving DecidableEq, Repr

/-- The method `Tree.calculateSpaces(start, end)`.  The total height is taken from
`this.state.traversal`, here `stateTraversal`. -/
def calculateSpaces (stateTraversal : List Entry) (itemHeight : Int) (start end_ : Int) :
    Int × Int :=
  let totalSpace := (stateTraversal.length : Int) * itemHeight
  let topSpace := start * itemHeight
  let bottomSpace := totalSpace - topSpace - itemHeight * (end_ - start + 1)
  let bottomSpace := if bottomSpace < 0 then 0 else bottomSpace
  let topSpace := if topSpace < 0 then 0 else topSpace
  (topSpace, bottomSpace)

/-- The test `!itemHeight` on the optional numeric prop. -/
def noItemHeight : Option Int → Bool
  | none => true
  | some h => decide (h = 0)

/-- The method `Tree.calculateSpace(traversal)`, with `this.parent`, `this.props.itemHeight`
and `this.state.traversal` as explicit arguments. -/
def calculateSpace (parent : Option ScrollParent) (itemHeight : Option Int)
    (stateTraversal traversal : List Entry) : Space :=
  match parent with
  | none =>
    { topSpace := 0, bottomSpace := 0, start := 0, end_ := (traversal.length : Int) - 1 }
  | some parent =>
    if noItemHeight itemHeight then
      { topSpace := 0, bottomSpace := 0, start := 0, end_ := (traversal.length : Int) - 1 }
    else
      let h := itemHeight.getD 0
      let itemsInViewPort := Int.fdiv (parent.clientHeight : Int) h
      let start := Int.fdiv parent.scrollTop h - NUMBER_OF_EXTRA_ITEMS
      let end_ := start + itemsInViewPort + 2 * NUMBER_OF_EXTRA_ITEMS
      let start := if start < 0 then 0 else start
      let end_ := if end_ ≥ (traversal.length : Int) then (traversal.length : Int) - 1 else end_
      let spaces := calculateSpaces stateTraversal h start end_
      { topSpace := spaces.1, bottomSpace := spaces.2, start := start, end_ := end_ }

/-- The method `Array.prototype.slice(start, end)` on integer arguments: a negative index
counts from the end of the array. -/
def slice {α : Type} (xs : List α) (start stop : Int) : List α :=
  let len : Int := xs.length
  let k := if start < 0 then max (len + start) 0 else min start len
  let final := if stop < 0 then max (len + stop) 0 else min stop len
  (xs.drop k.toNat).take (final - k).toNat

/-- The part of the component state that `updateTraversal` sets. -/
structure WindowState where
  topSpace : Int
  bottomSpace : Int
  visibleTraversal : List Entry
  deriving DecidableEq, Repr

/-- The method `Tree.updateTraversal(traversal)`: an absent argument stands for
`this.state.traversal`. -/
def updateTraversal (parent : Option ScrollParent) (itemHeight : Option Int)
    (stateTraversal : List Entry) (traversal : Option (List Entry)) : WindowState :=
  let traversal := match traversal with
    | none => stateTraversal
    | some t => t
  let space := calculateSpace parent itemHeight stateTraversal traversal
  { topSpace := space.topSpace, bottomSpace := space.bottomSpace,
    visibleTraversal := slice traversal space.start (space.end_ + 1) }

/-! ## Focus and keyboard navigation -/

/-- The values of `e.key` that `_onKeyDown` distinguishes; `other` is any other
key. -/
inductive Key where
  | ArrowUp | ArrowDown | ArrowLeft | ArrowRight | Home | End | Enter | other
  deriving DecidableEq, Repr

/-- The object `e.nativeEvent`: whether it has a `preventDefault` and a
`stopPropagation` method. -/
structure NativeEvent where
  preventDefault : Bool
  stopPropagation : Bool

/-- A key event, as far as the handlers read it. -/
structure KeyEvent where
  key : Key
  altKey : Bool := false
  ctrlKey : Bool := false
  shiftKey : Bool := false
  metaKey : Bool := false
  nativeEvent : Option NativeEvent := none

/-- The option `alignTo` of `_focus` and `_scrollNodeIntoView`. -/
inductive AlignTo where
  | top | bottom
  deriving DecidableEq, Repr

/-- A call made by the keyboard handlers: a caller-supplied callback, a method
of the event, or `this._scrollNodeIntoView`. -/
inductive Call where
  | onFocus (item : Option Item)
  | onExpand (item : Item)
  | onCollapse (item : Item)
  | onActivate (item : Option Item)
  | preventDefault
  | stopPropagation
  | nativePreventDefault
  | nativeStopPropagation
  | scrollNodeIntoView (item : Item) (alignTo : Option AlignTo)
  deriving DecidableEq, Repr

/-- Whether a logged call is one of the callbacks `onFocus`, `onExpand`,
`onCollapse`, `onActivate`. -/
def Call.isCallback : Call → Bool
  | Call.onFocus _ => true
  | Call.onExpand _ => true
  | Call.onCollapse _ => true
  | Call.onActivate _ => true
  | _ => false

/-- The method `Tree._preventArrowKeyScrolling(e)`. -/
def _preventArrowKeyScrolling (e : KeyEvent) (log : List Call) : List Call :=
  match e.key with
  | Key.ArrowUp | Key.ArrowDown | Key.ArrowLeft | Key.ArrowRight =>
    let log := log ++ [Call.preventDefault, Call.stopPropagation]
    match e.nativeEvent with
    | none => log
    | some native =>
      let log := if native.preventDefault then log ++ [Call.nativePreventDefault] else log
      if native.stopPropagation then log ++ [Call.nativeStopPropagation] else log
  | _ => log

/-- The method `Tree._focus(item, options)` with
`options = { alignTo, preventAutoScroll }`;
an absent `item` is `undefined`. -/
def _focus (props : Props) (item : Option Item) (alignTo : Option AlignTo)
    (preventAutoScroll : Bool) (log : List Call) : List Call :=
  let log := match item with
    | some it => if !preventAutoScroll then log ++ [Call.scrollNodeIntoView it alignTo] else log
    | none => log
  if props.onFocus then log ++ [Call.onFocus item] else log

/-- The method `Tree._onExpand(item, expandAllChildren)`. -/
def _onExpand (fuel : Nat) (props : Props) (item : Item) (expandAllChildren : Bool)
    (log : List Call) : Outcome (List Call) :=
  if props.onExpand then
    let log := log ++ [Call.onExpand item]
    if expandAllChildren then
      match _dfs props none fuel item [] 0 with
      | Outcome.done children =>
        Outcome.done (log ++ children.map (fun entry => Call.onExpand entry.item))
      | Outcome.typeError => Outcome.typeError
      | Outcome.outOfFuel => Outcome.outOfFuel
    else Outcome.done log
  else Outcome.done log

/-- The method `Tree._onCollapse(item)`. -/
def _onCollapse (props : Props) (item : Item) (log : List Call) : List Call :=
  if props.onCollapse then log ++ [Call.onCollapse item] else log

/-- The method `Tree._nodeIsExpandable(item)`. -/
def _nodeIsExpandable (props : Props) (item : Item) : Bool :=
  match props.isExpandable with
  | some isExpandable => isExpandable item
  | none => decide ((props.getChildren item).length ≠ 0)

/-- The loop of `_focusPrevNode`: `prev` is the item before the first entry that
is the focused item, or the last item when no entry is. -/
def prevScan (focused : Option Item) : List Entry → Option Item → Option Item
  | [], prev => prev
  | entry :: rest, prev =>
    if some entry.item = focused then prev else prevScan focused rest (some entry.item)

/-- The method `Tree._focusPrevNode()`. -/
def _focusPrevNode (props : Props) (traversal : List Entry) (log : List Call) :
    Outcome (List Call) :=
  match prevScan props.focused traversal none with
  | none => Outcome.done log
  | some prev => Outcome.done (_focus props (some prev) (some AlignTo.top) false log)

/-- The loop of `_focusNextNode`, started at index `i` on the entries from `i`
on: the index of the first entry that is the focused item, or the length. -/
def nextScan (focused : Option Item) : List Entry → Nat → Nat
  | [], i => i
  | entry :: rest, i =>
    if some entry.item = focused then i else nextScan focused rest (i + 1)

/-- The method `Tree._focusNextNode()`. -/
def _focusNextNode (props : Props) (traversal : List Entry) (log : List Call) :
    Outcome (List Call) :=
  let i := nextScan props.focused traversal 0
  if i + 1 < traversal.length then
    match traversal[i + 1]? with
    | some entry =>
      Outcome.done (_focus props (some entry.item) (some AlignTo.bottom) false log)
    | none => Outcome.typeError
  else Outcome.done log

/-- The method `Tree._focusParentNode()`.  The loop that computes `parentIndex` reads only
entries inside the traversal and its result is not used. -/
def _focusParentNode (props : Props) (traversal : List Entry) (focused : Item)
    (log : List Call) : Outcome (List Call) :=
  match props.getParent focused with
  | none => _focusPrevNode props traversal log
  | some parent => Outcome.done (_focus props (some parent) (some AlignTo.top) false log)

/-- The method `Tree._focusFirstNode()`: reads `traversal[0].item`. -/
def _focusFirstNode (props : Props) (traversal : List Entry) (log : List Call) :
    Outcome (List Call) :=
  match traversal[0]? with
  | some entry => Outcome.done (_focus props (some entry.item) (some AlignTo.top) false log)
  | none => Outcome.typeError

/-- The method `Tree._focusLastNode()`: reads `traversal[traversal.length - 1].item`; index
`-1` of an empty array is `undefined`. -/
def _focusLastNode (props : Props) (traversal : List Entry) (log : List Call) :
    Outcome (List Call) :=
  match traversal.length with
  | 0 => Outcome.typeError
  | lastIndex + 1 =>
    match traversal[lastIndex]? with
    | some entry =>
      Outcome.done (_focus props (some entry.item) (some AlignTo.bottom) false log)
    | none => Outcome.typeError

/-- The method `Tree._activateNode()`. -/
def _activateNode (props : Props) (log : List Call) : List Call :=
  if props.onActivate then log ++ [Call.onActivate props.focused] else log

/-- The method `Tree._onKeyDown(e)` on the traversal held in `this.state`; `log` holds the
calls made so far. -/
def _onKeyDown (fuel : Nat) (props : Props) (traversal : List Entry) (e : KeyEvent)
    (log : List Call) : Outcome (List Call) :=
  match props.focused with
  | none => Outcome.done log
  | some focused =>
    if e.altKey || e.ctrlKey || e.shiftKey || e.metaKey then Outcome.done log
    else
      let log := _preventArrowKeyScrolling e log
      match e.key with
      | Key.ArrowUp => _focusPrevNode props traversal log
      | Key.ArrowDown => _focusNextNode props traversal log
      | Key.ArrowLeft =>
        if props.isExpanded focused && _nodeIsExpandable props focused then
          Outcome.done (_onCollapse props focused log)
        else _focusParentNode props traversal focused log
      | Key.ArrowRight =>
        if _nodeIsExpandable props focused && !props.isExpanded focused then
          _onExpand fuel props focused false log
        else _focusNextNode props traversal log
      | Key.Home => _focusFirstNode props traversal log
      | Key.End => _focusLastNode props traversal log
      | Key.Enter => Outcome.done (_activateNode props log)
      | Key.other => Outcome.done log

/-! ## Specification-side notions -/

/-- A finite forest: `rank` strictly drops from every item to each of its
children, so every chain of children ends. -/
def Ranked (props : Props) (rank : Item → Nat) : Prop :=
  ∀ x c, c ∈ props.getChildren x → rank c < rank x

/-- The pre-order depth-first listing of a list of items at depth `d`: each item
in order contributes its entry followed, if and only if it is expanded, by the
listing of its children at depth `d + 1`. -/
inductive Listing (props : Props) : List Item → Nat → List Entry → Prop
  | nil (d : Nat) : Listing props [] d []
  | collapsed {x : Item} {xs : List Item} {d : Nat} {l : List Entry} :
      props.isExpanded x = false → Listing props xs d l →
      Listing props (x :: xs) d (⟨x, d⟩ :: l)
  | expanded {x : Item} {xs : List Item} {d : Nat} {lc l : List Entry} :
      props.isExpanded x = true → Listing props (props.getChildren x) (d + 1) lc →
      Listing props xs d l → Listing props (x :: xs) d (⟨x, d⟩ :: (lc ++ l))

/-- The relation "`c` is one of `getChildren(p)`". -/
def Child (props : Props) (p c : Item) : Prop := c ∈ props.getChildren p

/-- The relation "`y` is `x` or lies below `x`", through `getChildren` whether or
not the items on the way are expanded. -/
def Desc (props : Props) : Item → Item → Prop := Relation.ReflTransGen (Child props)

/-- The relation "`c` is a child of the expanded item `p`". -/
def ExpandedChild (props : Props) (p c : Item) : Prop :=
  props.isExpanded p = true ∧ c ∈ props.getChildren p

/-- The relation "`y` is `x` or lies below `x` through expanded items only". -/
def ExpandedDesc (props : Props) : Item → Item → Prop :=
  Relation.ReflTransGen (ExpandedChild props)

/-- An item reachable from the roots through expanded items only. -/
def Shown (props : Props) (y : Item) : Prop :=
  ∃ r ∈ props.getRoots, ExpandedDesc props r y

/-- Every item occurs at one position of the forest: no root and no child is
listed twice, no item is a child of two items, and no root is a child. -/
structure OnePosition (props : Props) : Prop where
  roots_nodup : props.getRoots.Nodup
  children_nodup : ∀ x, (props.getChildren x).Nodup
  one_parent : ∀ x y c, c ∈ props.getChildren x → c ∈ props.getChildren y → x = y
  root_no_parent : ∀ x c, c ∈ props.getChildren x → c ∉ props.getRoots

/-- The items of a list head pairwise disjoint subtrees. -/
def Separated (props : Props) (xs : List Item) : Prop :=
  xs.Pairwise (fun a b => ∀ z, Desc props a z → ¬ Desc props b z)

/-- The depth invariant of a traversal: the first entry, if any, has depth 0,
and from one entry to the next the depth rises by at most 1. -/
def DepthStep (t : List Entry) : Prop :=
  (∀ a, t[0]? = some a → a.depth = 0) ∧
  ∀ i a b, t[i]? = some a → t[i + 1]? = some b → b.depth ≤ a.depth + 1

/-- The entries of one listing at depth `d`: all at depth `d` or deeper, the
first at depth `d`, consecutive depths rising by at most 1. -/
def GoodBlock (d : Nat) (l : List Entry) : Prop :=
  (∀ e ∈ l, d ≤ e.depth) ∧ (∀ e ∈ l.head?, e.depth = d) ∧
  l.Chain' (fun a b => b.depth ≤ a.depth + 1)

/-- The props with the expansion state held as the set of expanded items, which
`isExpanded` reads. -/
def withExpanded (props : Props) (expanded : Finset Item) : Props :=
  { props with isExpanded := fun x => decide (x ∈ expanded) }

/-- Expanding an item adds it to the set of expanded items. -/
def expand (expanded : Finset Item) (x : Item) : Finset Item := insert x expanded

/-- Collapsing an item removes it from the set of expanded items. -/
def collapse (expanded : Finset Item) (x : Item) : Finset Item := expanded.erase x

/-- A path of `j` steps from `x` down to `y` through `children`, none of whose
items (ends included) is in `seen`. -/
inductive FreshPath (children : Item → List Item) (seen : Finset Item) :
    Nat → Item → Item → Prop
  | here {x : Item} : x ∉ seen → FreshPath children seen 0 x x
  | step {j : Nat} {x c y : Item} : x ∉ seen → c ∈ children x →
      FreshPath children seen j c y → FreshPath children seen (j + 1) x y

/-- The item `x` lies at depth `k`: `k` steps of `getChildren` below a root,
whether or not the items on the way are expanded. -/
def AtDepth (props : Props) (x : Item) (k : Nat) : Prop :=
  ∃ r ∈ props.getRoots, FreshPath props.getChildren ∅ k r x

/-- What `autoExpand(item, currentDepth)` computes when `n` levels remain
(`n = autoExpandDepth - currentDepth`) and `onExpand` is supplied; see
`autoExpand_eq_expandLevels`. -/
def expandLevels (children : Item → List Item) :
    Nat → Item → AutoExpandState → AutoExpandState
  | 0, _, st => st
  | n + 1, item, st =>
    if item ∈ st.seen then st
    else
      (children item).foldl (fun s c => expandLevels children n c s)
        { seen := insert item st.seen, expandCalls := st.expandCalls ++ [item] }

/-- The loop over a list of items, each with `n` levels remaining. -/
def expandList (children : Item → List Item) (n : Nat) (xs : List Item)
    (st : AutoExpandState) : AutoExpandState :=
  xs.foldl (fun s c => expandLevels children n c s) st

/-- From `st` to `st'` auto-expansion made the calls `new`, on items that were
not in the seen set, each once, each satisfying `P`, and added exactly those
items to the seen set. -/
def Grows (P : Item → Prop) (st st' : AutoExpandState) : Prop :=
  ∃ new : List Item, st'.expandCalls = st.expandCalls ++ new ∧
    st'.seen = st.seen ∪ new.toFinset ∧ new.Nodup ∧ ∀ y ∈ new, y ∉ st.seen ∧ P y

/-- The callbacks among the logged calls, in order. -/
def callbacks (log : List Call) : List Call := log.filter Call.isCallback

/-- The item `f` occurs in the traversal at index `i`, and at no earlier
index. -/
def FocusedAt (traversal : List Entry) (f : Item) (i : Nat) : Prop :=
  (∃ entry, traversal[i]? = some entry ∧ entry.item = f) ∧
  ∀ j, j < i → ∀ entry, traversal[j]? = some entry → entry.item ≠ f

/-- No modifier key is held. -/
def NoModifier (e : KeyEvent) : Prop :=
  e.altKey = false ∧ e.ctrlKey = false ∧ e.shiftKey = false ∧ e.metaKey = false

/-! ## Sample forests -/

/-- A three-level forest: the root 0 has the children 2 and 1, item 3 is the
child of 1, and 4 is a second root without children. -/
def sampleChildren : Item → List Item
  | 0 => [2, 1]
  | 1 => [3]
  | _ => []

/-- The parent of each item of the sample forest. -/
def sampleParent : Item → Option Item
  | 1 => some 0
  | 2 => some 0
  | 3 => some 1
  | _ => none

/-- The height of each item of the sample forest. -/
def sampleRank : Item → Nat
  | 0 => 2
  | 1 => 1
  | _ => 0

/-- The sample forest with items 0 and 1 expanded, `autoExpandDepth = 2` and
every callback supplied. -/
def sampleProps : Props :=
  { getRoots := [0, 4], getChildren := sampleChildren, getParent := sampleParent,
    isExpanded := fun x => decide (x ≤ 1), autoExpandDepth := 2, onFocus := true,
    onExpand := true, onCollapse := true, onActivate := true }

/-- A forest in which item 2 is a child of both roots 0 and 1, everything
expanded, with `autoExpandDepth = 2` and `onExpand` supplied. -/
def sharedChildProps : Props :=
  { getRoots := [0, 1], getChildren := fun x => if x ≤ 1 then [2] else [],
    getParent := fun _ => none, isExpanded := fun _ => true, autoExpandDepth := 2,
    onExpand := true }

/-- The traversal of the sample forest. -/
def sampleTraversal : List Entry := [⟨0, 0⟩, ⟨2, 1⟩, ⟨1, 1⟩, ⟨3, 2⟩, ⟨4, 0⟩]

/-! ## Theorems -/

theorem forEach_nil {α σ : Type} (body : α → σ → Outcome σ) (s : σ) :
    forEach body [] s = Outcome.done s := rfl

theorem forEach_cons_done {α σ : Type} (body : α → σ → Outcome σ) (x : α) (xs : List α)
    (s s' : σ) (h : body x s = Outcome.done s') :
    forEach body (x :: xs) s = forEach body xs s' := by
  simp [forEach, h]

theorem forEach_cons_inv {α σ : Type} (body : α → σ → Outcome σ) (x : α) (xs : List α)
    (s t : σ) (h : forEach body (x :: xs) s = Outcome.done t) :
    ∃ s', body x s = Outcome.done s' ∧ forEach body xs s' = Outcome.done t := by
  unfold forEach at h
  cases hb : body x s with
  | done s' => rw [hb] at h; exact ⟨s', rfl, h⟩
  | typeError => rw [hb] at h; cases h
  | outOfFuel => rw [hb] at h; cases h

theorem dfs_succ (props : Props) (maxDepth : Option Nat) (fuel : Nat) (item : Item)
    (trav : List Entry) (d : Nat) :
    _dfs props maxDepth (fuel + 1) item trav d =
      if props.isExpanded item = false then Outcome.done (trav ++ [⟨item, d⟩])
      else if exceeds (d + 1) maxDepth = true then Outcome.done (trav ++ [⟨item, d⟩])
      else forEach (fun child tr => _dfs props maxDepth fuel child tr (d + 1))
        (props.getChildren item) (trav ++ [⟨item, d⟩]) := by
  simp [_dfs]

theorem dfs_forEach_sound (props : Props) :
    ∀ (fuel : Nat) (xs : List Item) (trav : List Entry) (d : Nat) (t : List Entry),
      forEach (fun c tr => _dfs props none fuel c tr d) xs trav = Outcome.done t →
      ∃ l, t = trav ++ l ∧ Listing props xs d l := by
  intro fuel
  induction fuel with
  | zero =>
    intro xs trav d t h
    cases xs with
    | nil =>
      simp only [forEach_nil, Outcome.done.injEq] at h
      exact ⟨[], by simp [h], Listing.nil d⟩
    | cons x xs =>
      obtain ⟨s', h1, _⟩ := forEach_cons_inv _ _ _ _ _ h
      simp [_dfs] at h1
  | succ fuel ih =>
    intro xs
    induction xs with
    | nil =>
      intro trav d t h
      simp only [forEach_nil, Outcome.done.injEq] at h
      exact ⟨[], by simp [h], Listing.nil d⟩
    | cons x xs ihx =>
      intro trav d t h
      obtain ⟨s', h1, h2⟩ := forEach_cons_inv _ _ _ _ _ h
      rw [dfs_succ] at h1
      by_cases hexp : props.isExpanded x = false
      · rw [if_pos hexp] at h1
        cases h1
        obtain ⟨l, hl, hL⟩ := ihx _ _ _ h2
        exact ⟨⟨x, d⟩ :: l, by simp [hl], Listing.collapsed hexp hL⟩
      · rw [if_neg hexp, if_neg (by simp [exceeds])] at h1
        obtain ⟨lc, hlc, hLc⟩ := ih _ _ _ _ h1
        obtain ⟨l, hl, hL⟩ := ihx _ _ _ h2
        have hexp' : props.isExpanded x = true := by simpa using hexp
        exact ⟨⟨x, d⟩ :: (lc ++ l), by simp [hl, hlc], Listing.expanded hexp' hLc hL⟩

theorem dfs_forEach_total (props : Props) (maxDepth : Option Nat) (rank : Item → Nat)
    (hrank : Ranked props rank) :
    ∀ (fuel : Nat) (xs : List Item) (trav : List Entry) (d : Nat),
      (∀ x ∈ xs, rank x < fuel) →
      ∃ t, forEach (fun c tr => _dfs props maxDepth fuel c tr d) xs trav = Outcome.done t := by
  intro fuel
  induction fuel with
  | zero =>
    intro xs trav d hx
    cases xs with
    | nil => exact ⟨trav, rfl⟩
    | cons x xs => exact absurd (hx x (List.mem_cons_self _ _)) (Nat.not_lt_zero _)
  | succ fuel ih =>
    intro xs
    induction xs with
    | nil => intro trav d _; exact ⟨trav, rfl⟩
    | cons x xs ihx =>
      intro trav d hx
      have hxs : ∀ y ∈ xs, rank y < fuel + 1 := fun y hy => hx y (List.mem_cons_of_mem _ hy)
      have hstep : ∃ s', _dfs props maxDepth (fuel + 1) x trav d = Outcome.done s' := by
        rw [dfs_succ]
        by_cases hexp : props.isExpanded x = false
        · rw [if_pos hexp]; exact ⟨_, rfl⟩
        · rw [if_neg hexp]
          by_cases hmax : exceeds (d + 1) maxDepth = true
          · rw [if_pos hmax]; exact ⟨_, rfl⟩
          · rw [if_neg hmax]
            apply ih
            intro c hc
            have h1 := hrank x c hc
            have h2 := hx x (List.mem_cons_self _ _)
            omega
      obtain ⟨s', hs'⟩ := hstep
      obtain ⟨t, ht⟩ := ihx s' d hxs
      exact ⟨t, by rw [forEach_cons_done _ _ _ _ _ hs']; exact ht⟩

theorem Listing.unique (props : Props) {xs : List Item} {d : Nat} {l l' : List Entry}
    (h : Listing props xs d l) (h' : Listing props xs d l') : l = l' := by
  induction h generalizing l' with
  | nil d => cases h'; rfl
  | collapsed hx _ ih =>
    cases h' with
    | collapsed _ h2 => rw [ih h2]
    | expanded hx' _ _ => rw [hx] at hx'; cases hx'
  | expanded hx _ _ ihc ih =>
    cases h' with
    | collapsed hx' _ => rw [hx] at hx'; cases hx'
    | expanded _ h1 h2 => rw [ihc h1, ih h2]

theorem sample_ranked : Ranked sampleProps sampleRank := by
  intro x c hc
  match x with
  | 0 =>
    simp [sampleProps, sampleChildren] at hc
    rcases hc with rfl | rfl <;> simp [sampleRank]
  | 1 =>
    simp [sampleProps, sampleChildren] at hc
    subst hc
    simp [sampleRank]
  | n + 2 => simp [sampleProps, sampleChildren] at hc

/-- C1. For every finite forest, `_dfsFromRoots` with the default
`maxDepth = Infinity` and enough fuel (more than the rank of every root) returns
a traversal, and that traversal is exactly the pre-order depth-first listing of
the roots at depth 0: every root in the order of `getRoots`, each entry followed
by the listings of its children, in the order of `getChildren` and one level
deeper, if and only if the item is expanded.  The listing is unique. -/
theorem dfsFromRoots_is_preorder_listing (props : Props) (rank : Item → Nat)
    (hfinite : Ranked props rank) (fuel : Nat)
    (hfuel : ∀ r ∈ props.getRoots, rank r < fuel) :
    ∃ t, _dfsFromRoots fuel props none = Outcome.done t ∧
      Listing props props.getRoots 0 t ∧
      ∀ t', Listing props props.getRoots 0 t' → t' = t := by
  obtain ⟨t, ht⟩ := dfs_forEach_total props none rank hfinite fuel props.getRoots [] 0 hfuel
  obtain ⟨l, hl, hL⟩ := dfs_forEach_sound props fuel _ _ _ _ ht
  have htl : t = l := by simpa using hl
  subst htl
  exact ⟨t, ht, hL, fun t' h' => Listing.unique props h' hL⟩

theorem dfsFromRoots_is_preorder_listing_witness :
    Ranked sampleProps sampleRank ∧ (∀ r ∈ sampleProps.getRoots, sampleRank r < 3) ∧
    _dfsFromRoots 3 sampleProps none
      = Outcome.done [⟨0, 0⟩, ⟨2, 1⟩, ⟨1, 1⟩, ⟨3, 2⟩, ⟨4, 0⟩] ∧
    ∃ t, _dfsFromRoots 3 sampleProps none = Outcome.done t ∧
      Listing sampleProps sampleProps.getRoots 0 t ∧
      ∀ t', Listing sampleProps sampleProps.getRoots 0 t' → t' = t :=
  ⟨sample_ranked, by simp [sampleProps, sampleRank], by decide,
    dfsFromRoots_is_preorder_listing sampleProps sampleRank sample_ranked 3
      (by simp [sampleProps, sampleRank])⟩

theorem expandedDesc_desc (props : Props) {a b : Item} (h : ExpandedDesc props a b) :
    Desc props a b :=
  Relation.ReflTransGen.mono (fun _ _ hc => hc.2) h

theorem desc_rank_le (props : Props) (rank : Item → Nat) (hrank : Ranked props rank)
    {a b : Item} (h : Desc props a b) : rank b ≤ rank a := by
  induction h with
  | refl => exact le_refl _
  | tail _ hc ih => exact le_of_lt (lt_of_lt_of_le (hrank _ _ hc) ih)

theorem desc_of_child (props : Props) {x c z : Item} (hc : c ∈ props.getChildren x)
    (h : Desc props c z) : Desc props x z :=
  Relation.ReflTransGen.head hc h

theorem desc_comparable (props : Props)
    (hpar : ∀ x y c, c ∈ props.getChildren x → c ∈ props.getChildren y → x = y)
    {a b z : Item} (ha : Desc props a z) (hb : Desc props b z) :
    Desc props a b ∨ Desc props b a := by
  induction ha with
  | refl => exact Or.inr hb
  | @tail p z hap hpz ih =>
    rcases Relation.ReflTransGen.cases_tail hb with h | ⟨q, hbq, hqz⟩
    · subst h
      exact Or.inl (Relation.ReflTransGen.tail hap hpz)
    · have : p = q := hpar p q z hpz hqz
      subst this
      exact ih hbq

theorem separated_children (props : Props) (rank : Item → Nat) (hrank : Ranked props rank)
    (hone : OnePosition props) (x : Item) : Separated props (props.getChildren x) := by
  refine List.Pairwise.imp_of_mem ?_ (hone.children_nodup x)
  intro a b ha hb hab z haz hbz
  have key : ∀ u v, u ∈ props.getChildren x → v ∈ props.getChildren x → u ≠ v →
      ¬ Desc props u v := by
    intro u v hu hv huv huv'
    rcases Relation.ReflTransGen.cases_tail huv' with h | ⟨q, huq, hqv⟩
    · exact huv h.symm
    · have : q = x := hone.one_parent q x v hqv hv
      subst this
      have h1 := desc_rank_le props rank hrank huq
      have h2 := hrank _ _ hu
      omega
  rcases desc_comparable props hone.one_parent haz hbz with h | h
  · exact key a b ha hb hab h
  · exact key b a hb ha (Ne.symm hab) h

theorem separated_roots (props : Props) (hone : OnePosition props) :
    Separated props props.getRoots := by
  refine List.Pairwise.imp_of_mem ?_ hone.roots_nodup
  intro a b ha hb hab z haz hbz
  have key : ∀ u v, v ∈ props.getRoots → u ≠ v → ¬ Desc props u v := by
    intro u v hv huv huv'
    rcases Relation.ReflTransGen.cases_tail huv' with h | ⟨q, _, hqv⟩
    · exact huv h.symm
    · exact hone.root_no_parent q v hqv hv
  rcases desc_comparable props hone.one_parent haz hbz with h | h
  · exact key a b hb hab h
  · exact key b a ha (Ne.symm hab) h

theorem listing_mem_iff (props : Props) {xs : List Item} {d : Nat} {l : List Entry}
    (h : Listing props xs d l) :
    ∀ y, y ∈ l.map Entry.item ↔ ∃ x ∈ xs, ExpandedDesc props x y := by
  induction h with
  | nil d => intro y; simp
  | @collapsed x xs d l hx _ ih =>
    intro y
    simp only [List.map_cons, List.mem_cons, ih y]
    constructor
    · rintro (rfl | ⟨a, ha, hay⟩)
      · exact ⟨y, Or.inl rfl, Relation.ReflTransGen.refl⟩
      · exact ⟨a, Or.inr ha, hay⟩
    · rintro ⟨a, rfl | ha, hay⟩
      · rcases Relation.ReflTransGen.cases_head hay with h | ⟨c, hc, _⟩
        · exact Or.inl h.symm
        · rw [hc.1] at hx; cases hx
      · exact Or.inr ⟨a, ha, hay⟩
  | @expanded x xs d lc l hx _ _ ihc ih =>
    intro y
    simp only [List.map_cons, List.map_append, List.mem_cons, List.mem_append, ihc y, ih y]
    constructor
    · rintro (rfl | ⟨c, hc, hcy⟩ | ⟨a, ha, hay⟩)
      · exact ⟨y, Or.inl rfl, Relation.ReflTransGen.refl⟩
      · exact ⟨x, Or.inl rfl, Relation.ReflTransGen.head ⟨hx, hc⟩ hcy⟩
      · exact ⟨a, Or.inr ha, hay⟩
    · rintro ⟨a, rfl | ha, hay⟩
      · rcases Relation.ReflTransGen.cases_head hay with h | ⟨c, hc, hcy⟩
        · exact Or.inl h.symm
        · exact Or.inr (Or.inl ⟨c, hc.2, hcy⟩)
      · exact Or.inr (Or.inr ⟨a, ha, hay⟩)

theorem listing_nodup (props : Props) (rank : Item → Nat) (hrank : Ranked props rank)
    (hone : OnePosition props) {xs : List Item} {d : Nat} {l : List Entry}
    (h : Listing props xs d l) : Separated props xs → (l.map Entry.item).Nodup := by
  induction h with
  | nil d => intro _; simp
  | @collapsed x xs d l hx hl ih =>
    intro hsep
    have hsep' := List.pairwise_cons.mp hsep
    simp only [List.map_cons, List.nodup_cons]
    refine ⟨?_, ih hsep'.2⟩
    intro hmem
    obtain ⟨a, ha, hay⟩ := (listing_mem_iff props hl x).mp hmem
    exact hsep'.1 a ha x Relation.ReflTransGen.refl (expandedDesc_desc props hay)
  | @expanded x xs d lc l hx hlc hl ihc ih =>
    intro hsep
    have hsep' := List.pairwise_cons.mp hsep
    simp only [List.map_cons, List.map_append, List.nodup_cons, List.mem_append]
    refine ⟨?_, ?_⟩
    · rintro (hmem | hmem)
      · obtain ⟨c, hc, hcy⟩ := (listing_mem_iff props hlc x).mp hmem
        have h1 := desc_rank_le props rank hrank (expandedDesc_desc props hcy)
        have h2 := hrank _ _ hc
        omega
      · obtain ⟨a, ha, hay⟩ := (listing_mem_iff props hl x).mp hmem
        exact hsep'.1 a ha x Relation.ReflTransGen.refl (expandedDesc_desc props hay)
    · rw [List.nodup_append]
      refine ⟨ihc (separated_children props rank hrank hone x), ih hsep'.2, ?_⟩
      intro y hy1 hy2
      obtain ⟨c, hc, hcy⟩ := (listing_mem_iff props hlc y).mp hy1
      obtain ⟨a, ha, hay⟩ := (listing_mem_iff props hl y).mp hy2
      exact hsep'.1 a ha y (desc_of_child props hc (expandedDesc_desc props hcy))
        (expandedDesc_desc props hay)

theorem sample_onePosition : OnePosition sampleProps := by
  refine ⟨by decide, ?_, ?_, ?_⟩
  · intro x
    match x with
    | 0 => decide
    | 1 => decide
    | n + 2 => simp [sampleProps, sampleChildren]
  · intro x y c hx hy
    match x, y with
    | 0, 0 => rfl
    | 1, 1 => rfl
    | 0, 1 =>
      simp [sampleProps, sampleChildren] at hx hy
      subst hy
      simp at hx
    | 1, 0 =>
      simp [sampleProps, sampleChildren] at hx hy
      subst hx
      simp at hy
    | n + 2, _ => simp [sampleProps, sampleChildren] at hx
    | 0, n + 2 => simp [sampleProps, sampleChildren] at hy
    | 1, n + 2 => simp [sampleProps, sampleChildren] at hy
  · intro x c hx hr
    match x with
    | 0 =>
      simp [sampleProps, sampleChildren] at hx hr
      rcases hx with rfl | rfl <;> simp at hr
    | 1 =>
      simp [sampleProps, sampleChildren] at hx hr
      subst hx
      simp at hr
    | n + 2 => simp [sampleProps, sampleChildren] at hx

theorem dfsFromRoots_shown (props : Props) (fuel : Nat) (t : List Entry)
    (h : _dfsFromRoots fuel props none = Outcome.done t) :
    ∀ y, y ∈ t.map Entry.item ↔ Shown props y := by
  obtain ⟨l, hl, hL⟩ := dfs_forEach_sound props fuel _ _ _ _ h
  have htl : t = l := by simpa using hl
  subst htl
  exact listing_mem_iff props hL

/-- C2, as amended. For every finite forest in which every item occurs at one
position, `_dfsFromRoots` with enough fuel returns a traversal in which no item
appears twice and whose length is the number of distinct items reachable from
the roots through expanded items only. -/
theorem dfsFromRoots_length_of_onePosition (props : Props) (rank : Item → Nat)
    (hfinite : Ranked props rank) (hone : OnePosition props) (fuel : Nat)
    (hfuel : ∀ r ∈ props.getRoots, rank r < fuel) :
    ∃ t, _dfsFromRoots fuel props none = Outcome.done t ∧
      (t.map Entry.item).Nodup ∧
      ∃ s : Finset Item, (∀ y, y ∈ s ↔ Shown props y) ∧ t.length = s.card := by
  obtain ⟨t, ht⟩ := dfs_forEach_total props none rank hfinite fuel props.getRoots [] 0 hfuel
  obtain ⟨l, hl, hL⟩ := dfs_forEach_sound props fuel _ _ _ _ ht
  have htl : t = l := by simpa using hl
  subst htl
  have hnd := listing_nodup props rank hfinite hone hL (separated_roots props hone)
  refine ⟨t, ht, hnd, (t.map Entry.item).toFinset, ?_, ?_⟩
  · intro y
    rw [List.mem_toFinset]
    exact listing_mem_iff props hL y
  · rw [List.toFinset_card_of_nodup hnd, List.length_map]

theorem dfsFromRoots_length_of_onePosition_witness :
    Ranked sampleProps sampleRank ∧ OnePosition sampleProps ∧
    (∀ r ∈ sampleProps.getRoots, sampleRank r < 3) ∧
    ∃ t, _dfsFromRoots 3 sampleProps none = Outcome.done t ∧
      (t.map Entry.item).Nodup ∧
      ∃ s : Finset Item, (∀ y, y ∈ s ↔ Shown sampleProps y) ∧ t.length = s.card :=
  ⟨sample_ranked, sample_onePosition, by simp [sampleProps, sampleRank],
    dfsFromRoots_length_of_onePosition sampleProps sampleRank sample_ranked
      sample_onePosition 3 (by simp [sampleProps, sampleRank])⟩

/-- C2, counterexample. In the forest with roots 0 and 1 that share the child 2,
everything expanded, `_dfsFromRoots` returns four entries, item 2 appears twice,
and only three distinct items are reachable from the roots. -/
theorem dfsFromRoots_repeats_shared_child :
    _dfsFromRoots 3 sharedChildProps none
      = Outcome.done [⟨0, 0⟩, ⟨2, 1⟩, ⟨1, 0⟩, ⟨2, 1⟩] ∧
    ¬ (([⟨0, 0⟩, ⟨2, 1⟩, ⟨1, 0⟩, ⟨2, 1⟩] : List Entry).map Entry.item).Nodup ∧
    ∃ s : Finset Item, (∀ y, y ∈ s ↔ Shown sharedChildProps y) ∧
      ([⟨0, 0⟩, ⟨2, 1⟩, ⟨1, 0⟩, ⟨2, 1⟩] : List Entry).length ≠ s.card := by
  have hrun : _dfsFromRoots 3 sharedChildProps none
      = Outcome.done [⟨0, 0⟩, ⟨2, 1⟩, ⟨1, 0⟩, ⟨2, 1⟩] := by decide
  refine ⟨hrun, by decide, {0, 1, 2}, ?_, by decide⟩
  intro y
  rw [← dfsFromRoots_shown sharedChildProps 3 _ hrun y]
  simp
  tauto

theorem goodBlock_nil (d : Nat) : GoodBlock d [] := by
  simp [GoodBlock]

theorem goodBlock_leaf {d : Nat} {l : List Entry} (x : Item) (h : GoodBlock d l) :
    GoodBlock d (⟨x, d⟩ :: l) := by
  obtain ⟨h1, h2, h3⟩ := h
  refine ⟨?_, ?_, ?_⟩
  · intro e he
    rcases List.mem_cons.mp he with rfl | he
    · exact le_refl _
    · exact h1 e he
  · intro e he
    simp at he
    subst he
    rfl
  · rw [List.chain'_cons']
    refine ⟨?_, h3⟩
    intro y hy
    have := h2 y hy
    simp only
    omega

theorem goodBlock_node {d : Nat} {lc l : List Entry} (x : Item)
    (hc : GoodBlock (d + 1) lc) (h : GoodBlock d l) :
    GoodBlock d (⟨x, d⟩ :: (lc ++ l)) := by
  obtain ⟨c1, c2, c3⟩ := hc
  obtain ⟨h1, h2, h3⟩ := h
  refine ⟨?_, ?_, ?_⟩
  · intro e he
    rcases List.mem_cons.mp he with rfl | he
    · exact le_refl _
    · rcases List.mem_append.mp he with he | he
      · exact le_trans (Nat.le_succ d) (c1 e he)
      · exact h1 e he
  · intro e he
    simp at he
    subst he
    rfl
  · rw [List.chain'_cons']
    refine ⟨?_, ?_⟩
    · intro y hy
      simp only
      cases lc with
      | nil =>
        have := h2 y (by simpa using hy)
        omega
      | cons c lc =>
        have := c2 y (by simpa using hy)
        omega
    · refine List.Chain'.append c3 h3 ?_
      intro a ha b hb
      have ha' := c1 a (List.mem_of_mem_getLast? ha)
      have hb' := h2 b hb
      omega

theorem dfs_forEach_good (props : Props) (maxDepth : Option Nat) :
    ∀ (fuel : Nat) (xs : List Item) (trav : List Entry) (d : Nat) (t : List Entry),
      forEach (fun c tr => _dfs props maxDepth fuel c tr d) xs trav = Outcome.done t →
      ∃ l, t = trav ++ l ∧ GoodBlock d l := by
  intro fuel
  induction fuel with
  | zero =>
    intro xs trav d t h
    cases xs with
    | nil =>
      simp only [forEach_nil, Outcome.done.injEq] at h
      exact ⟨[], by simp [h], goodBlock_nil d⟩
    | cons x xs =>
      obtain ⟨s', h1, _⟩ := forEach_cons_inv _ _ _ _ _ h
      simp [_dfs] at h1
  | succ fuel ih =>
    intro xs
    induction xs with
    | nil =>
      intro trav d t h
      simp only [forEach_nil, Outcome.done.injEq] at h
      exact ⟨[], by simp [h], goodBlock_nil d⟩
    | cons x xs ihx =>
      intro trav d t h
      obtain ⟨s', h1, h2⟩ := forEach_cons_inv _ _ _ _ _ h
      rw [dfs_succ] at h1
      obtain ⟨l, hl, hL⟩ := ihx _ _ _ h2
      by_cases hexp : props.isExpanded x = false
      · rw [if_pos hexp] at h1
        cases h1
        exact ⟨⟨x, d⟩ :: l, by simp [hl], goodBlock_leaf x hL⟩
      · rw [if_neg hexp] at h1
        by_cases hmax : exceeds (d + 1) maxDepth = true
        · rw [if_pos hmax] at h1
          cases h1
          exact ⟨⟨x, d⟩ :: l, by simp [hl], goodBlock_leaf x hL⟩
        · rw [if_neg hmax] at h1
          obtain ⟨lc, hlc, hLc⟩ := ih _ _ _ _ h1
          exact ⟨⟨x, d⟩ :: (lc ++ l), by simp [hl, hlc], goodBlock_node x hLc hL⟩

theorem chain_getElem {R : Entry → Entry → Prop} :
    ∀ (l : List Entry), l.Chain' R →
      ∀ i a b, l[i]? = some a → l[i + 1]? = some b → R a b := by
  intro l
  induction l with
  | nil => intro _ i a b h; simp at h
  | cons x l ih =>
    intro hch i a b ha hb
    rw [List.chain'_cons'] at hch
    cases i with
    | zero =>
      simp at ha hb
      subst ha
      apply hch.1
      cases l with
      | nil => simp at hb
      | cons y l => simpa using hb
    | succ i =>
      simp at ha hb
      exact ih hch.2 i a b ha hb

theorem goodBlock_depthStep {l : List Entry} (h : GoodBlock 0 l) : DepthStep l := by
  obtain ⟨_, h2, h3⟩ := h
  refine ⟨?_, chain_getElem l h3⟩
  intro a ha
  apply h2
  cases l with
  | nil => simp at ha
  | cons y l => simpa using ha

/-- C3. For every forest and every `maxDepth`, whenever `_dfsFromRoots` returns a
traversal `t`, its first entry (if any) has depth 0 and `t[i+1].depth` is at
most `t[i].depth + 1` for every index `i` with `i + 1 < t.length`; and on a
finite forest, with more fuel than the rank of every root, a traversal is
returned. -/
theorem dfsFromRoots_depth_step (props : Props) (maxDepth : Option Nat) :
    (∀ fuel t, _dfsFromRoots fuel props maxDepth = Outcome.done t → DepthStep t) ∧
    (∀ rank, Ranked props rank → ∀ fuel, (∀ r ∈ props.getRoots, rank r < fuel) →
      ∃ t, _dfsFromRoots fuel props maxDepth = Outcome.done t) := by
  constructor
  · intro fuel t h
    obtain ⟨l, hl, hL⟩ := dfs_forEach_good props maxDepth fuel _ _ _ _ h
    have htl : t = l := by simpa using hl
    subst htl
    exact goodBlock_depthStep hL
  · intro rank hrank fuel hfuel
    exact dfs_forEach_total props maxDepth rank hrank fuel props.getRoots [] 0 hfuel

theorem dfsFromRoots_depth_step_witness :
    _dfsFromRoots 3 sampleProps none
      = Outcome.done [⟨0, 0⟩, ⟨2, 1⟩, ⟨1, 1⟩, ⟨3, 2⟩, ⟨4, 0⟩] ∧
    DepthStep [⟨0, 0⟩, ⟨2, 1⟩, ⟨1, 1⟩, ⟨3, 2⟩, ⟨4, 0⟩] ∧
    ∃ t, _dfsFromRoots 3 sampleProps none = Outcome.done t :=
  ⟨by decide,
    (dfsFromRoots_depth_step sampleProps none).1 3 _ (by decide),
    (dfsFromRoots_depth_step sampleProps none).2 sampleRank sample_ranked 3
      (by simp [sampleProps, sampleRank])⟩

/-- C4, as amended. For every forest and every item `x` that is not in the set
of expanded items, expanding `x` and then collapsing `x` gives back the same
set, so `_dfsFromRoots` computes the same result (for every fuel and
`maxDepth`) as before the expand. -/
theorem expand_collapse_roundtrip (props : Props) (expanded : Finset Item) (x : Item)
    (hx : x ∉ expanded) (fuel : Nat) (maxDepth : Option Nat) :
    _dfsFromRoots fuel (withExpanded props (collapse (expand expanded x) x)) maxDepth
      = _dfsFromRoots fuel (withExpanded props expanded) maxDepth := by
  unfold collapse expand
  rw [Finset.erase_insert hx]

theorem expand_collapse_roundtrip_witness :
    (1 : Item) ∉ ({0} : Finset Item) ∧
    _dfsFromRoots 3 (withExpanded sampleProps (collapse (expand {0} 1) 1)) none
      = _dfsFromRoots 3 (withExpanded sampleProps {0}) none ∧
    _dfsFromRoots 3 (withExpanded sampleProps {0}) none
      = Outcome.done [⟨0, 0⟩, ⟨2, 1⟩, ⟨1, 1⟩, ⟨4, 0⟩] :=
  ⟨by decide, expand_collapse_roundtrip sampleProps {0} 1 (by decide) 3 none, by decide⟩

/-- C4, counterexample. In the sample forest with item 0 expanded, expanding
item 0 and then collapsing it leaves item 0 collapsed: the traversal before the
expand has four entries, the traversal afterwards has two. -/
theorem expand_collapse_of_expanded_item_differs :
    _dfsFromRoots 3 (withExpanded sampleProps {0}) none
      = Outcome.done [⟨0, 0⟩, ⟨2, 1⟩, ⟨1, 1⟩, ⟨4, 0⟩] ∧
    _dfsFromRoots 3 (withExpanded sampleProps (collapse (expand {0} 0) 0)) none
      = Outcome.done [⟨0, 0⟩, ⟨4, 0⟩] := by
  constructor <;> decide

theorem forEach_eq_foldl {α σ : Type} (body : α → σ → Outcome σ) (f : σ → α → σ)
    (xs : List α) (h : ∀ x ∈ xs, ∀ s, body x s = Outcome.done (f s x)) :
    ∀ s, forEach body xs s = Outcome.done (xs.foldl f s) := by
  induction xs with
  | nil => intro s; rfl
  | cons x xs ih =>
    intro s
    rw [forEach_cons_done _ _ _ _ _ (h x (List.mem_cons_self _ _) s)]
    exact ih (fun y hy => h y (List.mem_cons_of_mem _ hy)) _

theorem forEach_append {α σ : Type} (body : α → σ → Outcome σ) (xs ys : List α) :
    ∀ s s', forEach body xs s = Outcome.done s' →
      forEach body (xs ++ ys) s = forEach body ys s' := by
  induction xs with
  | nil =>
    intro s s' h
    simp only [forEach_nil, Outcome.done.injEq] at h
    subst h
    rfl
  | cons x xs ih =>
    intro s s' h
    obtain ⟨s1, h1, h2⟩ := forEach_cons_inv _ _ _ _ _ h
    rw [List.cons_append, forEach_cons_done _ _ _ _ _ h1]
    exact ih _ _ h2

theorem autoExpand_eq_expandLevels (props : Props) (hcb : props.onExpand = true) :
    ∀ (fuel : Nat) (item : Item) (currentDepth : Nat) (st : AutoExpandState),
      props.autoExpandDepth - currentDepth < fuel →
      autoExpand props fuel item currentDepth st
        = Outcome.done
            (expandLevels props.getChildren (props.autoExpandDepth - currentDepth) item st) := by
  intro fuel
  induction fuel with
  | zero => intro item cd st h; exact absurd h (Nat.not_lt_zero _)
  | succ fuel ih =>
    intro item cd st h
    unfold autoExpand
    by_cases hd : cd ≥ props.autoExpandDepth
    · rw [if_pos (Or.inl hd)]
      have : props.autoExpandDepth - cd = 0 := by omega
      rw [this]
      rfl
    · by_cases hs : item ∈ st.seen
      · rw [if_pos (Or.inr hs)]
        cases hn : props.autoExpandDepth - cd with
        | zero => rfl
        | succ n => simp [expandLevels, hs]
      · rw [if_neg (by tauto)]
        have hn : props.autoExpandDepth - cd = (props.autoExpandDepth - (cd + 1)) + 1 := by
          omega
        rw [hn]
        simp only [hcb, Bool.not_true, Bool.false_eq_true, if_false, expandLevels, hs]
        apply forEach_eq_foldl
        intro c _ s
        apply ih
        omega

theorem autoExpand_run_all (props : Props) (hcb : props.onExpand = true)
    (hall : props.autoExpandAll = true) (fuel : Nat) (hfuel : props.autoExpandDepth < fuel)
    (st : AutoExpandState) :
    _autoExpand fuel props st
      = Outcome.done (expandList props.getChildren props.autoExpandDepth props.getRoots st) := by
  unfold _autoExpand
  by_cases hd : props.autoExpandDepth = 0
  · rw [if_pos hd, hd]
    congr 1
    unfold expandList
    generalize props.getRoots = roots
    induction roots generalizing st with
    | nil => rfl
    | cons r rs ih => exact ih (expandLevels props.getChildren 0 r st)
  · rw [if_neg hd, if_pos hall]
    unfold expandList
    apply forEach_eq_foldl
    intro r _ s
    exact autoExpand_eq_expandLevels props hcb fuel r 0 s (by omega)

theorem autoExpand_run_first (props : Props) (hcb : props.onExpand = true)
    (hnot : props.autoExpandAll = false) (fuel : Nat)
    (hfuel : props.autoExpandDepth < fuel) (st : AutoExpandState) :
    _autoExpand fuel props st
      = Outcome.done
          (expandList props.getChildren props.autoExpandDepth (props.getRoots.take 1) st) := by
  unfold _autoExpand
  by_cases hd : props.autoExpandDepth = 0
  · rw [if_pos hd, hd]
    congr 1
    unfold expandList
    cases props.getRoots with
    | nil => rfl
    | cons r rs => rfl
  · rw [if_neg hd, if_neg (by simp [hnot])]
    cases hr : props.getRoots with
    | nil => rfl
    | cons r rs =>
      simp only [List.take_succ_cons, List.take_zero, expandList, List.foldl_cons,
        List.foldl_nil]
      exact autoExpand_eq_expandLevels props hcb fuel r 0 st (by omega)

theorem grows_refl (P : Item → Prop) (st : AutoExpandState) : Grows P st st :=
  ⟨[], by simp, by simp, List.nodup_nil, by simp⟩

theorem grows_mono {P Q : Item → Prop} (h : ∀ y, P y → Q y) {st st' : AutoExpandState}
    (hg : Grows P st st') : Grows Q st st' := by
  obtain ⟨new, h1, h2, h3, h4⟩ := hg
  exact ⟨new, h1, h2, h3, fun y hy => ⟨(h4 y hy).1, h y (h4 y hy).2⟩⟩

theorem grows_trans {P : Item → Prop} {a b c : AutoExpandState}
    (hab : Grows P a b) (hbc : Grows P b c) : Grows P a c := by
  obtain ⟨n1, h1, h2, h3, h4⟩ := hab
  obtain ⟨n2, k1, k2, k3, k4⟩ := hbc
  refine ⟨n1 ++ n2, ?_, ?_, ?_, ?_⟩
  · rw [k1, h1, List.append_assoc]
  · rw [k2, h2, List.toFinset_append, Finset.union_assoc]
  · rw [List.nodup_append]
    refine ⟨h3, k3, ?_⟩
    intro y hy1 hy2
    apply (k4 y hy2).1
    rw [h2]
    exact Finset.mem_union_right _ (List.mem_toFinset.mpr hy1)
  · intro y hy
    rcases List.mem_append.mp hy with hy | hy
    · exact h4 y hy
    · refine ⟨?_, (k4 y hy).2⟩
      intro hya
      apply (k4 y hy).1
      rw [h2]
      exact Finset.mem_union_left _ hya

theorem grows_subset {P : Item → Prop} {st st' : AutoExpandState} (hg : Grows P st st') :
    st.seen ⊆ st'.seen := by
  obtain ⟨new, _, h2, _, _⟩ := hg
  rw [h2]
  exact Finset.subset_union_left

theorem grows_new_mem {P : Item → Prop} {st st' : AutoExpandState} (hg : Grows P st st')
    {z : Item} (hz : z ∈ st'.seen) : z ∈ st.seen ∨ P z := by
  obtain ⟨new, _, h2, _, h4⟩ := hg
  rw [h2] at hz
  rcases Finset.mem_union.mp hz with h | h
  · exact Or.inl h
  · exact Or.inr (h4 z (List.mem_toFinset.mp h)).2

theorem expandList_grows (children : Item → List Item) (n : Nat)
    (hlev : ∀ x st, Grows (fun y => ∃ j, j < n ∧ FreshPath children ∅ j x y) st
      (expandLevels children n x st)) :
    ∀ (xs : List Item) (st : AutoExpandState),
      Grows (fun y => ∃ c ∈ xs, ∃ j, j < n ∧ FreshPath children ∅ j c y) st
        (expandList children n xs st) := by
  intro xs
  induction xs with
  | nil => intro st; exact grows_refl _ st
  | cons x xs ih =>
    intro st
    have h1 := hlev x st
    have h2 := ih (expandLevels children n x st)
    refine grows_trans (grows_mono ?_ h1) (grows_mono ?_ h2)
    · rintro y ⟨j, hj, hp⟩
      exact ⟨x, List.mem_cons_self _ _, j, hj, hp⟩
    · rintro y ⟨c, hc, j, hj, hp⟩
      exact ⟨c, List.mem_cons_of_mem _ hc, j, hj, hp⟩

theorem expandLevels_grows (children : Item → List Item) :
    ∀ (n : Nat) (x : Item) (st : AutoExpandState),
      Grows (fun y => ∃ j, j < n ∧ FreshPath children ∅ j x y) st
        (expandLevels children n x st) := by
  intro n
  induction n with
  | zero => intro x st; exact grows_refl _ st
  | succ n ih =>
    intro x st
    unfold expandLevels
    by_cases hs : x ∈ st.seen
    · rw [if_pos hs]; exact grows_refl _ st
    · rw [if_neg hs]
      have hfirst : Grows (fun y => ∃ j, j < n + 1 ∧ FreshPath children ∅ j x y) st
          { seen := insert x st.seen, expandCalls := st.expandCalls ++ [x] } := by
        refine ⟨[x], rfl, ?_, List.nodup_singleton x, ?_⟩
        · ext z; simp [or_comm]
        · intro y hy
          rw [List.mem_singleton] at hy
          subst hy
          exact ⟨hs, 0, Nat.succ_pos n, FreshPath.here (Finset.not_mem_empty _)⟩
      refine grows_trans hfirst (grows_mono ?_ (expandList_grows children n ih _ _))
      rintro y ⟨c, hc, j, hj, hp⟩
      exact ⟨j + 1, by omega, FreshPath.step (Finset.not_mem_empty _) hc hp⟩

theorem freshPath_desc (props : Props) {seen : Finset Item} {j : Nat} {x y : Item}
    (h : FreshPath props.getChildren seen j x y) : Desc props x y := by
  induction h with
  | here _ => exact Relation.ReflTransGen.refl
  | step _ hc _ ih => exact Relation.ReflTransGen.head hc ih

theorem freshPath_end_fresh {children : Item → List Item} {seen : Finset Item} {j : Nat}
    {x y : Item} (h : FreshPath children seen j x y) : y ∉ seen := by
  induction h with
  | here hx => exact hx
  | step _ _ _ ih => exact ih

theorem freshPath_last_step {children : Item → List Item} {seen : Finset Item} :
    ∀ (j : Nat) (x y : Item), FreshPath children seen (j + 1) x y →
      ∃ p, FreshPath children seen j x p ∧ y ∈ children p := by
  intro j
  induction j with
  | zero =>
    intro x y h
    cases h with
    | step hx hc hp =>
      cases hp with
      | here _ => exact ⟨x, FreshPath.here hx, hc⟩
  | succ j ih =>
    intro x y h
    cases h with
    | step hx hc hp =>
      obtain ⟨p, hp1, hp2⟩ := ih _ _ hp
      exact ⟨p, FreshPath.step hx hc hp1, hp2⟩

theorem atDepth_unique (props : Props) (hone : OnePosition props) :
    ∀ (k k' : Nat) (x : Item), AtDepth props x k → AtDepth props x k' → k = k' := by
  intro k
  induction k with
  | zero =>
    intro k' x h h'
    obtain ⟨r, hr, hp⟩ := h
    cases hp
    cases k' with
    | zero => rfl
    | succ k' =>
      obtain ⟨r', _, hp'⟩ := h'
      obtain ⟨p, _, hc⟩ := freshPath_last_step _ _ _ hp'
      exact absurd hr (hone.root_no_parent p x hc)
  | succ k ih =>
    intro k' x h h'
    obtain ⟨r, hr, hp⟩ := h
    obtain ⟨p, hp1, hc⟩ := freshPath_last_step _ _ _ hp
    cases k' with
    | zero =>
      obtain ⟨r', hr', hp'⟩ := h'
      cases hp'
      exact absurd hr' (hone.root_no_parent p x hc)
    | succ k' =>
      obtain ⟨r', hr', hp'⟩ := h'
      obtain ⟨p', hp1', hc'⟩ := freshPath_last_step _ _ _ hp'
      have : p = p' := hone.one_parent p p' x hc hc'
      subst this
      rw [ih k' p ⟨r, hr, hp1⟩ ⟨r', hr', hp1'⟩]

theorem expandList_subset (children : Item → List Item) (n : Nat) (xs : List Item)
    (st : AutoExpandState) : st.seen ⊆ (expandList children n xs st).seen :=
  grows_subset (expandList_grows children n (expandLevels_grows children n) xs st)

theorem cover_list (props : Props) (n : Nat) (seen0 : Finset Item)
    (hlev : ∀ (x : Item) (st : AutoExpandState),
      (∀ z ∈ st.seen, Desc props x z → z ∈ seen0) →
      ∀ j y, j < n → FreshPath props.getChildren seen0 j x y →
        y ∈ (expandLevels props.getChildren n x st).seen) :
    ∀ (cs : List Item) (st : AutoExpandState), Separated props cs →
      (∀ c ∈ cs, ∀ z ∈ st.seen, Desc props c z → z ∈ seen0) →
      ∀ c ∈ cs, ∀ j y, j < n → FreshPath props.getChildren seen0 j c y →
        y ∈ (expandList props.getChildren n cs st).seen := by
  intro cs
  induction cs with
  | nil => intro st _ _ c hc; cases hc
  | cons a rest ih =>
    intro st hsep hinv c hc j y hj hp
    have hsep' := List.pairwise_cons.mp hsep
    have hstep : expandList props.getChildren n (a :: rest) st
        = expandList props.getChildren n rest (expandLevels props.getChildren n a st) := rfl
    rw [hstep]
    rcases List.mem_cons.mp hc with rfl | hc
    · apply expandList_subset
      exact hlev c st (hinv c (List.mem_cons_self _ _)) j y hj hp
    · apply ih _ hsep'.2 _ c hc j y hj hp
      intro c2 hc2 z hz hdesc
      rcases grows_new_mem (expandLevels_grows props.getChildren n a st) hz with hold | hnew
      · exact hinv c2 (List.mem_cons_of_mem _ hc2) z hold hdesc
      · obtain ⟨i, _, hpath⟩ := hnew
        exact absurd hdesc (hsep'.1 c2 hc2 z (freshPath_desc props hpath))

theorem cover_levels (props : Props) (rank : Item → Nat) (hrank : Ranked props rank)
    (hone : OnePosition props) (seen0 : Finset Item) :
    ∀ (n : Nat) (x : Item) (st : AutoExpandState),
      (∀ z ∈ st.seen, Desc props x z → z ∈ seen0) →
      ∀ j y, j < n → FreshPath props.getChildren seen0 j x y →
        y ∈ (expandLevels props.getChildren n x st).seen := by
  intro n
  induction n with
  | zero => intro x st _ j y hj; exact absurd hj (Nat.not_lt_zero _)
  | succ n ih =>
    intro x st hinv j y hj hp
    have hx0 : x ∉ seen0 := by
      cases hp with
      | here hx => exact hx
      | step hx _ _ => exact hx
    have hxs : x ∉ st.seen := fun h => hx0 (hinv x h Relation.ReflTransGen.refl)
    have hunfold : expandLevels props.getChildren (n + 1) x st
        = expandList props.getChildren n (props.getChildren x)
            { seen := insert x st.seen, expandCalls := st.expandCalls ++ [x] } := by
      simp [expandLevels, expandList, hxs]
    rw [hunfold]
    cases hp with
    | here _ =>
      apply expandList_subset
      exact Finset.mem_insert_self _ _
    | @step j' _ c _ _ hc hp' =>
      refine cover_list props n seen0 ih _ _ (separated_children props rank hrank hone x)
        ?_ c hc j' y (by omega) hp'
      intro c2 hc2 z hz hdesc
      rcases Finset.mem_insert.mp hz with rfl | hz
      · have h1 := desc_rank_le props rank hrank hdesc
        have h2 := hrank _ _ hc2
        omega
      · exact hinv z hz (desc_of_child props hc2 hdesc)

theorem grows_initial_calls {P : Item → Prop} {st' : AutoExpandState}
    (hg : Grows P AutoExpandState.initial st') :
    st'.expandCalls.Nodup ∧ (∀ x, x ∈ st'.seen ↔ x ∈ st'.expandCalls) ∧
      ∀ y ∈ st'.expandCalls, P y := by
  obtain ⟨new, h1, h2, h3, h4⟩ := hg
  have hc : st'.expandCalls = new := by simpa [AutoExpandState.initial] using h1
  rw [hc]
  refine ⟨h3, ?_, fun y hy => (h4 y hy).2⟩
  intro x
  rw [h2]
  simp [AutoExpandState.initial]

/-- C5. For every finite forest in which every item occurs at one position,
with `autoExpandAll = true`, `autoExpandDepth = d`, `onExpand` supplied and more
fuel than `d`, one run of `_autoExpand` from the empty seen set finishes, calls
`props.onExpand` exactly once on every item at a depth below `d` (reached through
`getChildren`, expanded or not) and never on an item at depth `d` or deeper;
with `d = 0` it calls nothing. -/
theorem autoExpand_expands_first_levels (props : Props) (rank : Item → Nat)
    (hfinite : Ranked props rank) (hone : OnePosition props)
    (hall : props.autoExpandAll = true) (hcb : props.onExpand = true) (fuel : Nat)
    (hfuel : props.autoExpandDepth < fuel) :
    ∃ st', _autoExpand fuel props AutoExpandState.initial = Outcome.done st' ∧
      (∀ x k, AtDepth props x k → k < props.autoExpandDepth →
        st'.expandCalls.count x = 1) ∧
      (∀ x k, AtDepth props x k → props.autoExpandDepth ≤ k → x ∉ st'.expandCalls) ∧
      (props.autoExpandDepth = 0 → st'.expandCalls = []) := by
  refine ⟨_, autoExpand_run_all props hcb hall fuel hfuel _, ?_, ?_, ?_⟩
  all_goals
    obtain ⟨hnd, hseen, hP⟩ := grows_initial_calls
      (expandList_grows props.getChildren props.autoExpandDepth
        (expandLevels_grows props.getChildren props.autoExpandDepth) props.getRoots
        AutoExpandState.initial)
  · intro x k hk hlt
    obtain ⟨r, hr, hp⟩ := hk
    apply List.count_eq_one_of_mem hnd
    rw [← hseen]
    exact cover_list props props.autoExpandDepth ∅
      (cover_levels props rank hfinite hone ∅ props.autoExpandDepth) props.getRoots
      AutoExpandState.initial (separated_roots props hone)
      (fun _ _ z hz _ => by simp [AutoExpandState.initial] at hz) r hr k x hlt hp
  · intro x k hk hle hx
    obtain ⟨c, hc, j, hj, hp⟩ := hP x hx
    have := atDepth_unique props hone k j x hk ⟨c, hc, hp⟩
    omega
  · intro hd
    apply List.eq_nil_iff_forall_not_mem.mpr
    intro y hy
    obtain ⟨c, hc, j, hj, hp⟩ := hP y hy
    omega

theorem autoExpand_expands_first_levels_witness :
    Ranked sampleProps sampleRank ∧ OnePosition sampleProps ∧
    (∃ st', _autoExpand 3 sampleProps AutoExpandState.initial = Outcome.done st' ∧
      st'.expandCalls = [0, 2, 1, 4]) ∧
    AtDepth sampleProps 3 2 ∧
    ∃ st', _autoExpand 3 sampleProps AutoExpandState.initial = Outcome.done st' ∧
      (∀ x k, AtDepth sampleProps x k → k < sampleProps.autoExpandDepth →
        st'.expandCalls.count x = 1) ∧
      (∀ x k, AtDepth sampleProps x k → sampleProps.autoExpandDepth ≤ k →
        x ∉ st'.expandCalls) ∧
      (sampleProps.autoExpandDepth = 0 → st'.expandCalls = []) :=
  ⟨sample_ranked, sample_onePosition, ⟨_, rfl, rfl⟩,
    ⟨0, by decide, FreshPath.step (by simp) (by decide : (1 : Item) ∈ sampleChildren 0)
      (FreshPath.step (by simp) (by decide : (3 : Item) ∈ sampleChildren 1)
        (FreshPath.here (by simp)))⟩,
    autoExpand_expands_first_levels sampleProps sampleRank sample_ranked
      sample_onePosition rfl rfl 3 (by decide)⟩

theorem autoExpand_run_grows (props : Props) (hcb : props.onExpand = true) (fuel : Nat)
    (hfuel : props.autoExpandDepth < fuel) (st : AutoExpandState) :
    ∃ st', _autoExpand fuel props st = Outcome.done st' ∧ Grows (fun _ => True) st st' := by
  cases hall : props.autoExpandAll with
  | true =>
    exact ⟨_, autoExpand_run_all props hcb hall fuel hfuel st,
      grows_mono (fun _ _ => trivial)
        (expandList_grows props.getChildren _ (expandLevels_grows props.getChildren _) _ st)⟩
  | false =>
    exact ⟨_, autoExpand_run_first props hcb hall fuel hfuel st,
      grows_mono (fun _ _ => trivial)
        (expandList_grows props.getChildren _ (expandLevels_grows props.getChildren _) _ st)⟩

theorem autoExpandRuns_grows (fuel : Nat) :
    ∀ (runs : List Props) (st : AutoExpandState),
      (∀ p ∈ runs, p.autoExpandDepth < fuel ∧ p.onExpand = true) →
      ∃ st', autoExpandRuns fuel runs st = Outcome.done st' ∧
        Grows (fun _ => True) st st' := by
  intro runs
  induction runs with
  | nil => intro st _; exact ⟨st, rfl, grows_refl _ st⟩
  | cons p ps ih =>
    intro st h
    obtain ⟨hf, hcb⟩ := h p (List.mem_cons_self _ _)
    obtain ⟨s1, h1, g1⟩ := autoExpand_run_grows p hcb fuel hf st
    obtain ⟨s2, h2, g2⟩ := ih s1 (fun q hq => h q (List.mem_cons_of_mem _ hq))
    refine ⟨s2, ?_, grows_trans g1 g2⟩
    unfold autoExpandRuns
    rw [forEach_cons_done _ _ _ _ _ h1]
    exact h2

/-- C6. Over any sequence of `_autoExpand` runs on one component instance
(`runs` followed by `more`, the props and forest of each run arbitrary, each
with `onExpand` supplied and `autoExpandDepth` below the fuel), starting from the
empty seen set: all runs finish; no item occurs twice in the log of `onExpand`
calls, whatever the shape of the forests; the seen set after `runs` is contained
in the seen set after the further runs `more`, the earlier log is the beginning
of the later one; and the seen set is exactly the set of items in the log. -/
theorem autoExpand_runs_expand_once (runs more : List Props) (fuel : Nat)
    (hruns : ∀ p ∈ runs ++ more, p.autoExpandDepth < fuel ∧ p.onExpand = true) :
    ∃ st st', autoExpandRuns fuel runs AutoExpandState.initial = Outcome.done st ∧
      autoExpandRuns fuel (runs ++ more) AutoExpandState.initial = Outcome.done st' ∧
      st.seen ⊆ st'.seen ∧
      (∃ new, st'.expandCalls = st.expandCalls ++ new) ∧
      st'.expandCalls.Nodup ∧
      (∀ x, x ∈ st.seen ↔ x ∈ st.expandCalls) ∧
      (∀ x, x ∈ st'.seen ↔ x ∈ st'.expandCalls) := by
  obtain ⟨st, h1, g1⟩ := autoExpandRuns_grows fuel runs AutoExpandState.initial
    (fun p hp => hruns p (List.mem_append_left _ hp))
  obtain ⟨st', h2, g2⟩ := autoExpandRuns_grows fuel more st
    (fun p hp => hruns p (List.mem_append_right _ hp))
  have h12 : autoExpandRuns fuel (runs ++ more) AutoExpandState.initial
      = Outcome.done st' := by
    unfold autoExpandRuns at h1 h2 ⊢
    rw [forEach_append _ _ _ _ _ h1]
    exact h2
  have hnew : ∃ new, st'.expandCalls = st.expandCalls ++ new := by
    obtain ⟨new, hn, _⟩ := g2
    exact ⟨new, hn⟩
  exact ⟨st, st', h1, h12, grows_subset g2, hnew,
    (grows_initial_calls (grows_trans g1 g2)).1, (grows_initial_calls g1).2.1,
    (grows_initial_calls (grows_trans g1 g2)).2.1⟩

theorem autoExpand_runs_expand_once_witness :
    (∀ p ∈ [sharedChildProps] ++ [sampleProps, sharedChildProps],
      p.autoExpandDepth < 3 ∧ p.onExpand = true) ∧
    (∃ st, autoExpandRuns 3 [sharedChildProps] AutoExpandState.initial = Outcome.done st ∧
      st.expandCalls = [0, 2, 1]) ∧
    (∃ st', autoExpandRuns 3 ([sharedChildProps] ++ [sampleProps, sharedChildProps])
        AutoExpandState.initial = Outcome.done st' ∧
      st'.expandCalls = [0, 2, 1, 4]) ∧
    ∃ st st', autoExpandRuns 3 [sharedChildProps] AutoExpandState.initial
        = Outcome.done st ∧
      autoExpandRuns 3 ([sharedChildProps] ++ [sampleProps, sharedChildProps])
        AutoExpandState.initial = Outcome.done st' ∧
      st.seen ⊆ st'.seen ∧
      (∃ new, st'.expandCalls = st.expandCalls ++ new) ∧
      st'.expandCalls.Nodup ∧
      (∀ x, x ∈ st.seen ↔ x ∈ st.expandCalls) ∧
      (∀ x, x ∈ st'.seen ↔ x ∈ st'.expandCalls) :=
  ⟨by decide, ⟨_, rfl, rfl⟩, ⟨_, rfl, rfl⟩,
    autoExpand_runs_expand_once [sharedChildProps] [sampleProps, sharedChildProps] 3
      (by decide)⟩

/-- C7, as amended. For every finite forest in which every item occurs at one
position and every seen set left by earlier runs, a run of `_autoExpand` with
`autoExpandAll = true`, `autoExpandDepth = d`, `onExpand` supplied and more fuel
than `d` finishes, and every item within the first `d` levels that is reached
from a root along a path none of whose items (the item itself included) was in
the seen set has received `props.onExpand` in this run, exactly once, and is in
the seen set afterwards. -/
theorem autoExpand_covers_unseen_paths (props : Props) (rank : Item → Nat)
    (hfinite : Ranked props rank) (hone : OnePosition props)
    (hall : props.autoExpandAll = true) (hcb : props.onExpand = true)
    (st : AutoExpandState) (fuel : Nat) (hfuel : props.autoExpandDepth < fuel) :
    ∃ st' new, _autoExpand fuel props st = Outcome.done st' ∧
      st'.expandCalls = st.expandCalls ++ new ∧
      ∀ x k, k < props.autoExpandDepth →
        (∃ r ∈ props.getRoots, FreshPath props.getChildren st.seen k r x) →
        x ∈ st'.seen ∧ new.count x = 1 := by
  have hg := expandList_grows props.getChildren props.autoExpandDepth
    (expandLevels_grows props.getChildren props.autoExpandDepth) props.getRoots st
  obtain ⟨new, h1, h2, h3, h4⟩ := hg
  refine ⟨_, new, autoExpand_run_all props hcb hall fuel hfuel st, h1, ?_⟩
  rintro x k hk ⟨r, hr, hp⟩
  have hx : x ∈ (expandList props.getChildren props.autoExpandDepth props.getRoots
      st).seen :=
    cover_list props props.autoExpandDepth st.seen
      (cover_levels props rank hfinite hone st.seen props.autoExpandDepth) props.getRoots
      st (separated_roots props hone) (fun _ _ z hz _ => hz) r hr k x hk hp
  refine ⟨hx, List.count_eq_one_of_mem h3 ?_⟩
  rw [h2] at hx
  rcases Finset.mem_union.mp hx with h | h
  · exact absurd h (freshPath_end_fresh hp)
  · exact List.mem_toFinset.mp h

theorem autoExpand_covers_unseen_paths_witness :
    Ranked sampleProps sampleRank ∧ OnePosition sampleProps ∧
    (∃ st', _autoExpand 3 sampleProps ⟨{4}, [4]⟩ = Outcome.done st' ∧
      st'.expandCalls = [4, 0, 2, 1]) ∧
    ∃ st' new, _autoExpand 3 sampleProps ⟨{4}, [4]⟩ = Outcome.done st' ∧
      st'.expandCalls = [4] ++ new ∧
      ∀ x k, k < sampleProps.autoExpandDepth →
        (∃ r ∈ sampleProps.getRoots, FreshPath sampleProps.getChildren {4} k r x) →
        x ∈ st'.seen ∧ new.count x = 1 :=
  ⟨sample_ranked, sample_onePosition, ⟨_, rfl, rfl⟩,
    autoExpand_covers_unseen_paths sampleProps sampleRank sample_ranked sample_onePosition
      rfl rfl ⟨{4}, [4]⟩ 3 (by decide)⟩

/-- C7, counterexample. In the sample forest with `autoExpandDepth = 2`, when the
root 0 is already in the seen set (auto-expanded by an earlier run) and its
children 2 and 1 are not, a run of `_autoExpand` stops at the root: item 1 lies
at depth 1, was not in the seen set, and after the run has received no
`onExpand` call and is still not in the seen set. -/
theorem autoExpand_skips_children_of_seen_parent :
    AtDepth sampleProps 1 1 ∧ (1 : Item) ∉ ({0} : Finset Item) ∧
    ∃ st', _autoExpand 3 sampleProps ⟨{0}, [0]⟩ = Outcome.done st' ∧
      st'.expandCalls = [0, 4] ∧ (1 : Item) ∉ st'.seen :=
  ⟨⟨0, by decide, FreshPath.step (by simp) (by decide : (1 : Item) ∈ sampleChildren 0)
      (FreshPath.here (by simp))⟩,
    by decide, ⟨_, rfl, rfl, by decide⟩⟩

theorem expandList_append (children : Item → List Item) (n : Nat) (xs ys : List Item)
    (st : AutoExpandState) :
    expandList children n (xs ++ ys) st
      = expandList children n ys (expandList children n xs st) := by
  simp [expandList, List.foldl_append]

theorem expandLevels_self_seen (children : Item → List Item) (n : Nat) (x : Item)
    (st : AutoExpandState) : x ∈ (expandLevels children (n + 1) x st).seen := by
  unfold expandLevels
  by_cases hs : x ∈ st.seen
  · rw [if_pos hs]; exact hs
  · rw [if_neg hs]
    exact expandList_subset children n (children x) _ (Finset.mem_insert_self _ _)

theorem expandList_roots_seen (children : Item → List Item) (n : Nat) :
    ∀ (xs : List Item) (st : AutoExpandState), ∀ r ∈ xs,
      r ∈ (expandList children (n + 1) xs st).seen := by
  intro xs
  induction xs with
  | nil => intro st r hr; cases hr
  | cons x xs ih =>
    intro st r hr
    have hstep : expandList children (n + 1) (x :: xs) st
        = expandList children (n + 1) xs (expandLevels children (n + 1) x st) := rfl
    rw [hstep]
    rcases List.mem_cons.mp hr with rfl | hr
    · exact expandList_subset children (n + 1) xs _ (expandLevels_self_seen children n r st)
    · exact ih _ r hr

/-- C8. With `autoExpandAll = false` (and `onExpand` supplied, fuel above
`autoExpandDepth`) a run of `_autoExpand` from any state finishes and makes
exactly the calls of the run, with `autoExpandAll = true`, on the forest that
consists of the first root alone; every item called is `roots[0]` or lies below
it, fewer than `autoExpandDepth` steps down, so an item that is neither gets no
call; in a forest in which every item occurs at one position no other root and
no item below another root is called; when `getRoots()` is empty nothing is
called.  With `autoExpandAll = true` the roots are processed in order: for every
split of the roots into a front and a back part the run is the run on the front
part followed by the run on the back part, and when `autoExpandDepth > 0` every
root is in the seen set afterwards. -/
theorem autoExpand_first_root_only (props : Props) (hnot : props.autoExpandAll = false)
    (hcb : props.onExpand = true) (st : AutoExpandState) (fuel : Nat)
    (hfuel : props.autoExpandDepth < fuel) :
    (∃ st' new, _autoExpand fuel props st = Outcome.done st' ∧
      st'.expandCalls = st.expandCalls ++ new ∧
      _autoExpand fuel
        { props with getRoots := props.getRoots.take 1, autoExpandAll := true } st
        = Outcome.done st' ∧
      (∀ y ∈ new, ∃ r, props.getRoots.head? = some r ∧
        ∃ j, j < props.autoExpandDepth ∧ FreshPath props.getChildren ∅ j r y) ∧
      (OnePosition props → ∀ r ∈ props.getRoots.tail, ∀ y, Desc props r y → y ∉ new) ∧
      (props.getRoots = [] → new = [])) ∧
    (∀ front back, props.getRoots = front ++ back →
      ∃ s1 s2,
        _autoExpand fuel { props with getRoots := front, autoExpandAll := true } st
          = Outcome.done s1 ∧
        _autoExpand fuel { props with getRoots := back, autoExpandAll := true } s1
          = Outcome.done s2 ∧
        _autoExpand fuel { props with autoExpandAll := true } st = Outcome.done s2 ∧
        (0 < props.autoExpandDepth → ∀ r ∈ props.getRoots, r ∈ s2.seen)) := by
  constructor
  · obtain ⟨new, h1, _, _, h4⟩ := expandList_grows props.getChildren props.autoExpandDepth
      (expandLevels_grows props.getChildren props.autoExpandDepth)
      (props.getRoots.take 1) st
    refine ⟨_, new, autoExpand_run_first props hcb hnot fuel hfuel st, h1, ?_, ?_, ?_, ?_⟩
    · exact autoExpand_run_all
        { props with getRoots := props.getRoots.take 1, autoExpandAll := true }
        hcb rfl fuel hfuel st
    · intro y hy
      obtain ⟨c, hc, j, hj, hp⟩ := (h4 y hy).2
      refine ⟨c, ?_, j, hj, hp⟩
      cases hr : props.getRoots with
      | nil => rw [hr] at hc; simp at hc
      | cons r rs =>
        rw [hr] at hc
        simp at hc
        simp [hc]
    · intro hone r hr y hdesc hy
      obtain ⟨c, hc, j, _, hp⟩ := (h4 y hy).2
      have hsep := separated_roots props hone
      cases hroots : props.getRoots with
      | nil => rw [hroots] at hc; simp at hc
      | cons r0 rs =>
        rw [hroots] at hc hr
        simp at hc hr
        subst hc
        unfold Separated at hsep
        rw [hroots] at hsep
        exact (List.pairwise_cons.mp hsep).1 r hr y (freshPath_desc props hp) hdesc
    · intro hr
      apply List.eq_nil_iff_forall_not_mem.mpr
      intro y hy
      obtain ⟨c, hc, _⟩ := (h4 y hy).2
      rw [hr] at hc
      simp at hc
  · intro front back hsplit
    refine ⟨_, _,
      autoExpand_run_all { props with getRoots := front, autoExpandAll := true }
        hcb rfl fuel hfuel st,
      autoExpand_run_all { props with getRoots := back, autoExpandAll := true }
        hcb rfl fuel hfuel _, ?_, ?_⟩
    · rw [autoExpand_run_all { props with autoExpandAll := true } hcb rfl fuel hfuel st]
      congr 1
      show expandList props.getChildren props.autoExpandDepth props.getRoots st = _
      rw [hsplit, expandList_append]
    · intro hd r hr
      obtain ⟨n, hn⟩ := Nat.exists_eq_succ_of_ne_zero (Nat.pos_iff_ne_zero.mp hd)
      show r ∈ (expandList props.getChildren props.autoExpandDepth back
        (expandList props.getChildren props.autoExpandDepth front st)).seen
      rw [← expandList_append, ← hsplit, hn]
      exact expandList_roots_seen props.getChildren n props.getRoots st r hr

theorem autoExpand_first_root_only_witness :
    (∃ st', _autoExpand 3 { sampleProps with autoExpandAll := false }
        AutoExpandState.initial = Outcome.done st' ∧ st'.expandCalls = [0, 2, 1]) ∧
    (∃ st' new, _autoExpand 3 { sampleProps with autoExpandAll := false }
        AutoExpandState.initial = Outcome.done st' ∧
      st'.expandCalls = AutoExpandState.initial.expandCalls ++ new ∧
      _autoExpand 3
        { sampleProps with getRoots := sampleProps.getRoots.take 1, autoExpandAll := true }
        AutoExpandState.initial = Outcome.done st' ∧
      (∀ y ∈ new, ∃ r, sampleProps.getRoots.head? = some r ∧
        ∃ j, j < sampleProps.autoExpandDepth ∧
          FreshPath sampleProps.getChildren ∅ j r y) ∧
      (OnePosition { sampleProps with autoExpandAll := false } →
        ∀ r ∈ sampleProps.getRoots.tail, ∀ y,
          Desc { sampleProps with autoExpandAll := false } r y → y ∉ new) ∧
      (sampleProps.getRoots = [] → new = [])) :=
  ⟨⟨_, rfl, rfl⟩,
    (autoExpand_first_root_only { sampleProps with autoExpandAll := false } rfl rfl
      AutoExpandState.initial 3 (by decide)).1⟩

theorem calculateSpaces_exact (stateTraversal : List Entry) (h start end_ : Int)
    (hh : 0 < h) (hs : 0 ≤ start) (he : end_ ≤ (stateTraversal.length : Int) - 1) :
    calculateSpaces stateTraversal h start end_
      = (start * h, (stateTraversal.length : Int) * h - start * h - h * (end_ - start + 1)) := by
  have htop : ¬ start * h < 0 := not_lt.mpr (mul_nonneg hs (le_of_lt hh))
  have hbot : ¬ (stateTraversal.length : Int) * h - start * h - h * (end_ - start + 1) < 0 := by
    have : (stateTraversal.length : Int) * h - start * h - h * (end_ - start + 1)
        = h * ((stateTraversal.length : Int) - 1 - end_) := by ring
    rw [this]
    exact not_lt.mpr (mul_nonneg (le_of_lt hh) (by omega))
  simp only [calculateSpaces, if_neg htop, if_neg hbot]

theorem calculateSpace_window (parent : ScrollParent) (h : Int) (hh : h ≠ 0)
    (stateTraversal traversal : List Entry) :
    (calculateSpace (some parent) (some h) stateTraversal traversal).start
      = max 0 (Int.fdiv parent.scrollTop h - 50) ∧
    (calculateSpace (some parent) (some h) stateTraversal traversal).end_
      = min ((traversal.length : Int) - 1)
          (Int.fdiv parent.scrollTop h - 50 + Int.fdiv (parent.clientHeight : Int) h + 100) := by
  simp only [calculateSpace, noItemHeight, hh, decide_False, Bool.false_eq_true, if_false,
    Option.getD_some, NUMBER_OF_EXTRA_ITEMS]
  generalize Int.fdiv parent.scrollTop h = q
  generalize Int.fdiv (parent.clientHeight : Int) h = iv
  constructor
  · split_ifs <;> omega
  · split_ifs <;> omega

theorem calculateSpace_spaces (parent : ScrollParent) (h : Int) (hh : h ≠ 0)
    (stateTraversal traversal : List Entry) :
    ((calculateSpace (some parent) (some h) stateTraversal traversal).topSpace,
      (calculateSpace (some parent) (some h) stateTraversal traversal).bottomSpace)
      = calculateSpaces stateTraversal h
          (calculateSpace (some parent) (some h) stateTraversal traversal).start
          (calculateSpace (some parent) (some h) stateTraversal traversal).end_ := by
  simp only [calculateSpace, noItemHeight, hh, decide_False, Bool.false_eq_true, if_false,
    Option.getD_some]

/-- C9, the part that holds. When `this.state.traversal` is the traversal passed
to `calculateSpace` (as it is on a scroll event), for every traversal, positive
`itemHeight` and scroll container, `topSpace + (end - start + 1) * itemHeight +
bottomSpace` is exactly `traversal.length * itemHeight`, with both spaces
non-negative. -/
theorem calculateSpace_total_height_of_current_state (parent : ScrollParent) (h : Int)
    (hh : 0 < h) (traversal : List Entry) :
    (calculateSpace (some parent) (some h) traversal traversal).topSpace
      + ((calculateSpace (some parent) (some h) traversal traversal).end_
          - (calculateSpace (some parent) (some h) traversal traversal).start + 1) * h
      + (calculateSpace (some parent) (some h) traversal traversal).bottomSpace
      = (traversal.length : Int) * h ∧
    0 ≤ (calculateSpace (some parent) (some h) traversal traversal).topSpace ∧
    0 ≤ (calculateSpace (some parent) (some h) traversal traversal).bottomSpace := by
  have hne : h ≠ 0 := ne_of_gt hh
  obtain ⟨hs, he⟩ := calculateSpace_window parent h hne traversal traversal
  have hsp := calculateSpace_spaces parent h hne traversal traversal
  have hs0 : 0 ≤ (calculateSpace (some parent) (some h) traversal traversal).start := by
    rw [hs]; exact le_max_left _ _
  have he0 : (calculateSpace (some parent) (some h) traversal traversal).end_
      ≤ (traversal.length : Int) - 1 := by
    rw [he]; exact min_le_left _ _
  rw [calculateSpaces_exact traversal h _ _ hh hs0 he0] at hsp
  have h1 := congrArg Prod.fst hsp
  have h2 := congrArg Prod.snd hsp
  simp only at h1 h2
  rw [h1, h2]
  refine ⟨by ring, mul_nonneg hs0 (le_of_lt hh), ?_⟩
  have : (traversal.length : Int) * h
        - (calculateSpace (some parent) (some h) traversal traversal).start * h
        - h * ((calculateSpace (some parent) (some h) traversal traversal).end_
            - (calculateSpace (some parent) (some h) traversal traversal).start + 1)
      = h * ((traversal.length : Int) - 1
          - (calculateSpace (some parent) (some h) traversal traversal).end_) := by ring
  rw [this]
  exact mul_nonneg (le_of_lt hh) (by omega)

/-- C9, the failing input. With a previous traversal of 100 entries still in
`this.state.traversal`, `calculateSpace` on a new traversal of 1000 entries with
`itemHeight = 20`, `clientHeight = 200` and `scrollTop = 500` returns
`start = 0`, `end = 85`, `topSpace = 0`, `bottomSpace = 280`: the total
`topSpace + (end - start + 1) * itemHeight + bottomSpace` is 2000, not
`1000 * 20 = 20000`. -/
theorem calculateSpace_total_height_stale_state :
    calculateSpace (some ⟨200, 500⟩) (some 20) (List.replicate 100 ⟨0, 0⟩)
        (List.replicate 1000 ⟨0, 0⟩)
      = { topSpace := 0, bottomSpace := 280, start := 0, end_ := 85 } ∧
    (0 : Int) + (85 - 0 + 1) * 20 + 280 = 2000 ∧
    ((List.replicate 1000 (⟨0, 0⟩ : Entry)).length : Int) * 20 = 20000 := by
  refine ⟨?_, by decide, ?_⟩
  · simp only [calculateSpace, calculateSpaces, noItemHeight, NUMBER_OF_EXTRA_ITEMS,
      List.length_replicate, Option.getD_some]
    decide
  · simp only [List.length_replicate]
    decide

/-- C10. When a scroll container and a non-zero item height exist,
`calculateSpace` returns `start = max(0, floor(scrollTop/itemHeight) - 50)` and
`end = min(L - 1, floor(scrollTop/itemHeight) - 50 + floor(clientHeight/itemHeight)
+ 100)` for a traversal of length `L`, so `0 <= start` and `end <= L - 1`, and
every traversal index `i < L` from `floor(scrollTop/itemHeight)` to
`floor(scrollTop/itemHeight) + floor(clientHeight/itemHeight)` lies between
`start` and `end`. -/
theorem calculateSpace_start_end (parent : ScrollParent) (h : Int) (hh : h ≠ 0)
    (stateTraversal traversal : List Entry) :
    (calculateSpace (some parent) (some h) stateTraversal traversal).start
      = max 0 (Int.fdiv parent.scrollTop h - 50) ∧
    (calculateSpace (some parent) (some h) stateTraversal traversal).end_
      = min ((traversal.length : Int) - 1)
          (Int.fdiv parent.scrollTop h - 50 + Int.fdiv (parent.clientHeight : Int) h + 100) ∧
    0 ≤ (calculateSpace (some parent) (some h) stateTraversal traversal).start ∧
    (calculateSpace (some parent) (some h) stateTraversal traversal).end_
      ≤ (traversal.length : Int) - 1 ∧
    ∀ i : Nat, Int.fdiv parent.scrollTop h ≤ (i : Int) →
      (i : Int) ≤ Int.fdiv parent.scrollTop h + Int.fdiv (parent.clientHeight : Int) h →
      i < traversal.length →
      (calculateSpace (some parent) (some h) stateTraversal traversal).start ≤ (i : Int) ∧
      (i : Int) ≤ (calculateSpace (some parent) (some h) stateTraversal traversal).end_ := by
  obtain ⟨hs, he⟩ := calculateSpace_window parent h hh stateTraversal traversal
  rw [hs, he]
  refine ⟨rfl, rfl, le_max_left _ _, min_le_left _ _, ?_⟩
  intro i h1 h2 h3
  generalize Int.fdiv parent.scrollTop h = q at *
  generalize Int.fdiv (parent.clientHeight : Int) h = iv at *
  omega

theorem calculateSpace_start_end_witness :
    (20 : Int) ≠ 0 ∧
    calculateSpace (some ⟨200, 500⟩) (some 20) (List.replicate 1000 ⟨0, 0⟩)
        (List.replicate 1000 ⟨0, 0⟩)
      = { topSpace := 0, bottomSpace := 18280, start := 0, end_ := 85 } ∧
    ∀ i : Nat, Int.fdiv 500 20 ≤ (i : Int) →
      (i : Int) ≤ Int.fdiv 500 20 + Int.fdiv ((200 : Nat) : Int) 20 →
      i < (List.replicate 1000 (⟨0, 0⟩ : Entry)).length →
      (calculateSpace (some ⟨200, 500⟩) (some 20) (List.replicate 1000 ⟨0, 0⟩)
        (List.replicate 1000 ⟨0, 0⟩)).start ≤ (i : Int) ∧
      (i : Int) ≤ (calculateSpace (some ⟨200, 500⟩) (some 20) (List.replicate 1000 ⟨0, 0⟩)
        (List.replicate 1000 ⟨0, 0⟩)).end_ :=
  ⟨by decide,
    by
      simp only [calculateSpace, calculateSpaces, noItemHeight, NUMBER_OF_EXTRA_ITEMS,
        List.length_replicate, Option.getD_some]
      decide,
    (calculateSpace_start_end ⟨200, 500⟩ 20 (by decide) (List.replicate 1000 ⟨0, 0⟩)
      (List.replicate 1000 ⟨0, 0⟩)).2.2.2.2⟩

theorem slice_all {α : Type} (xs : List α) : slice xs 0 ((xs.length : Int) - 1 + 1) = xs := by
  have h0 : ¬ ((xs.length : Int) - 1 + 1 < 0) := by omega
  have h1 : min ((xs.length : Int) - 1 + 1) (xs.length : Int) = (xs.length : Int) := by
    rw [min_eq_right]; omega
  have h2 : min (0 : Int) (xs.length : Int) = 0 := by
    rw [min_eq_left]; omega
  simp only [slice, lt_irrefl, if_false, h0, h1, h2, Int.toNat_zero, List.drop_zero,
    sub_zero, Int.toNat_ofNat, List.take_length]

/-- C11. When there is no scroll container or no item height, `calculateSpace`
returns `start = 0`, `end = traversal.length - 1`, `topSpace = 0` and
`bottomSpace = 0` for every traversal, and `updateTraversal` sets
`visibleTraversal` to the entire traversal (the argument, or
`this.state.traversal` when there is none), the empty traversal included. -/
theorem calculateSpace_without_measurement (parent : Option ScrollParent)
    (itemHeight : Option Int) (stateTraversal : List Entry)
    (hno : parent = none ∨ noItemHeight itemHeight = true) :
    (∀ traversal, calculateSpace parent itemHeight stateTraversal traversal
      = { topSpace := 0, bottomSpace := 0, start := 0,
          end_ := (traversal.length : Int) - 1 }) ∧
    (∀ traversal, updateTraversal parent itemHeight stateTraversal (some traversal)
      = { topSpace := 0, bottomSpace := 0, visibleTraversal := traversal }) ∧
    updateTraversal parent itemHeight stateTraversal none
      = { topSpace := 0, bottomSpace := 0, visibleTraversal := stateTraversal } := by
  have hcalc : ∀ traversal, calculateSpace parent itemHeight stateTraversal traversal
      = { topSpace := 0, bottomSpace := 0, start := 0,
          end_ := (traversal.length : Int) - 1 } := by
    intro traversal
    rcases hno with h | h
    · subst h; rfl
    · cases parent with
      | none => rfl
      | some p => simp only [calculateSpace, h, if_true]
  refine ⟨hcalc, ?_, ?_⟩
  · intro traversal
    simp only [updateTraversal, hcalc, slice_all]
  · simp only [updateTraversal, hcalc, slice_all]

theorem calculateSpace_without_measurement_witness :
    ((none : Option ScrollParent) = none ∨ noItemHeight (some 20) = true) ∧
    updateTraversal none (some 20) [] (some [⟨0, 0⟩, ⟨2, 1⟩])
      = { topSpace := 0, bottomSpace := 0, visibleTraversal := [⟨0, 0⟩, ⟨2, 1⟩] } ∧
    updateTraversal none (some 20) [] none
      = { topSpace := 0, bottomSpace := 0, visibleTraversal := [] } :=
  ⟨Or.inl rfl,
    (calculateSpace_without_measurement none (some 20) [] (Or.inl rfl)).2.1 _,
    (calculateSpace_without_measurement none (some 20) [] (Or.inl rfl)).2.2⟩

/-- C19. When virtualization is active (a scroll container, a positive item
height, `scrollTop >= 0`), the number of rows that `updateTraversal` puts in
`visibleTraversal` is at most `floor(clientHeight/itemHeight) + 2 * 50 + 1`,
whatever the length of the traversal. -/
theorem updateTraversal_row_bound (parent : ScrollParent) (h : Int) (hh : 0 < h)
    (hscroll : 0 ≤ parent.scrollTop) (stateTraversal : List Entry)
    (traversal : Option (List Entry)) :
    ((updateTraversal (some parent) (some h) stateTraversal traversal).visibleTraversal.length
        : Int)
      ≤ Int.fdiv (parent.clientHeight : Int) h + 2 * 50 + 1 := by
  have hq : 0 ≤ Int.fdiv parent.scrollTop h := Int.fdiv_nonneg hscroll (le_of_lt hh)
  have hiv : 0 ≤ Int.fdiv (parent.clientHeight : Int) h :=
    Int.fdiv_nonneg (Int.ofNat_nonneg _) (le_of_lt hh)
  have hne : h ≠ 0 := ne_of_gt hh
  have key : ∀ t : List Entry,
      ((slice t (calculateSpace (some parent) (some h) stateTraversal t).start
        ((calculateSpace (some parent) (some h) stateTraversal t).end_ + 1)).length : Int)
        ≤ Int.fdiv (parent.clientHeight : Int) h + 2 * 50 + 1 := by
    intro t
    obtain ⟨hs, he⟩ := calculateSpace_window parent h hne stateTraversal t
    rw [hs, he]
    generalize Int.fdiv parent.scrollTop h = q at *
    generalize Int.fdiv (parent.clientHeight : Int) h = iv at *
    simp only [slice, List.length_take, List.length_drop]
    split_ifs <;> omega
  cases traversal with
  | none => exact key stateTraversal
  | some t => exact key t

theorem updateTraversal_row_bound_witness :
    (0 : Int) < 20 ∧ (0 : Int) ≤ 500 ∧
    ((updateTraversal (some ⟨200, 500⟩) (some 20) [] (some (List.replicate 1000 ⟨0, 0⟩))
        ).visibleTraversal.length : Int)
      ≤ Int.fdiv ((200 : Nat) : Int) 20 + 2 * 50 + 1 :=
  ⟨by decide, by decide,
    updateTraversal_row_bound ⟨200, 500⟩ 20 (by decide) (by decide) []
      (some (List.replicate 1000 ⟨0, 0⟩))⟩

theorem nextScan_first (f : Item) :
    ∀ (l : List Entry) (k i : Nat), FocusedAt l f i → nextScan (some f) l k = k + i := by
  intro l
  induction l with
  | nil =>
    intro k i h
    obtain ⟨⟨entry, he, _⟩, _⟩ := h
    simp at he
  | cons a l ih =>
    intro k i h
    obtain ⟨⟨entry, he, hitem⟩, hfirst⟩ := h
    cases i with
    | zero =>
      simp at he
      subst he
      simp [nextScan, hitem]
    | succ i =>
      have ha : a.item ≠ f := hfirst 0 (Nat.succ_pos i) a (by simp)
      have hrec : FocusedAt l f i := by
        refine ⟨⟨entry, by simpa using he, hitem⟩, ?_⟩
        intro j hj en hen
        exact hfirst (j + 1) (by omega) en (by simpa using hen)
      simp only [nextScan, Option.some.injEq, ha, if_false]
      rw [ih (k + 1) i hrec]
      omega

theorem prevScan_first (f : Item) :
    ∀ (l : List Entry) (prev : Option Item) (i : Nat), FocusedAt l f i →
      prevScan (some f) l prev
        = match i with
          | 0 => prev
          | j + 1 => (l[j]?).map Entry.item := by
  intro l
  induction l with
  | nil =>
    intro prev i h
    obtain ⟨⟨entry, he, _⟩, _⟩ := h
    simp at he
  | cons a l ih =>
    intro prev i h
    obtain ⟨⟨entry, he, hitem⟩, hfirst⟩ := h
    cases i with
    | zero =>
      simp at he
      subst he
      simp [prevScan, hitem]
    | succ i =>
      have ha : a.item ≠ f := hfirst 0 (Nat.succ_pos i) a (by simp)
      have hrec : FocusedAt l f i := by
        refine ⟨⟨entry, by simpa using he, hitem⟩, ?_⟩
        intro j hj en hen
        exact hfirst (j + 1) (by omega) en (by simpa using hen)
      simp only [prevScan, Option.some.injEq, ha, if_false]
      rw [ih (some a.item) i hrec]
      cases i with
      | zero => simp
      | succ j => simp

theorem callbacks_prevent (e : KeyEvent) :
    callbacks (_preventArrowKeyScrolling e []) = [] := by
  unfold _preventArrowKeyScrolling callbacks
  cases e.key <;> cases e.nativeEvent <;> simp [Call.isCallback] <;>
    split_ifs <;> simp [Call.isCallback]

theorem onKeyDown_unmodified (fuel : Nat) (props : Props) (traversal : List Entry)
    (e : KeyEvent) (log : List Call) (f : Item) (hf : props.focused = some f)
    (hmod : NoModifier e) :
    _onKeyDown fuel props traversal e log
      = match e.key with
        | Key.ArrowUp => _focusPrevNode props traversal (_preventArrowKeyScrolling e log)
        | Key.ArrowDown => _focusNextNode props traversal (_preventArrowKeyScrolling e log)
        | Key.ArrowLeft =>
          if props.isExpanded f && _nodeIsExpandable props f then
            Outcome.done (_onCollapse props f (_preventArrowKeyScrolling e log))
          else _focusParentNode props traversal f (_preventArrowKeyScrolling e log)
        | Key.ArrowRight =>
          if _nodeIsExpandable props f && !props.isExpanded f then
            _onExpand fuel props f false (_preventArrowKeyScrolling e log)
          else _focusNextNode props traversal (_preventArrowKeyScrolling e log)
        | Key.Home => _focusFirstNode props traversal (_preventArrowKeyScrolling e log)
        | Key.End => _focusLastNode props traversal (_preventArrowKeyScrolling e log)
        | Key.Enter => Outcome.done (_activateNode props (_preventArrowKeyScrolling e log))
        | Key.other => Outcome.done (_preventArrowKeyScrolling e log) := by
  obtain ⟨h1, h2, h3, h4⟩ := hmod
  unfold _onKeyDown
  simp only [hf, h1, h2, h3, h4, Bool.or_self, Bool.false_eq_true, if_false]

/-- C12. For every traversal and focused item `f` whose index in it is `i` (the
first entry that is `f`), an ArrowDown key press without modifiers, with
`onFocus` supplied and no call logged before: when `i + 1 < traversal.length` it
scrolls to and calls `onFocus` on `traversal[i+1].item`, and that is the only
callback invoked; when `f` is the last entry it invokes no callback. -/
theorem arrowDown_focuses_next (fuel : Nat) (props : Props) (traversal : List Entry)
    (e : KeyEvent) (f : Item) (i : Nat) (hf : props.focused = some f)
    (hkey : e.key = Key.ArrowDown) (hmod : NoModifier e) (hcb : props.onFocus = true)
    (hat : FocusedAt traversal f i) :
    (∀ next, traversal[i + 1]? = some next →
      _onKeyDown fuel props traversal e []
        = Outcome.done (_preventArrowKeyScrolling e [] ++
            [Call.scrollNodeIntoView next.item (some AlignTo.bottom),
              Call.onFocus (some next.item)]) ∧
      callbacks (_preventArrowKeyScrolling e [] ++
            [Call.scrollNodeIntoView next.item (some AlignTo.bottom),
              Call.onFocus (some next.item)])
        = [Call.onFocus (some next.item)]) ∧
    (i + 1 = traversal.length →
      _onKeyDown fuel props traversal e [] = Outcome.done (_preventArrowKeyScrolling e []) ∧
      callbacks (_preventArrowKeyScrolling e []) = []) := by
  have hrun := onKeyDown_unmodified fuel props traversal e [] f hf hmod
  rw [hkey] at hrun
  simp only at hrun
  have hscan : nextScan props.focused traversal 0 = i := by
    rw [hf, nextScan_first f traversal 0 i hat]; omega
  constructor
  · intro next hnext
    have hlt : i + 1 < traversal.length := by
      by_contra hge
      rw [List.getElem?_eq_none (by omega)] at hnext
      cases hnext
    refine ⟨?_, ?_⟩
    · rw [hrun]
      simp only [_focusNextNode, hscan, hlt, if_true, hnext, _focus, hcb, Bool.not_false,
        List.append_assoc, List.singleton_append]
    · have := callbacks_prevent e
      unfold callbacks at this ⊢
      rw [List.filter_append, this]
      simp [Call.isCallback]
  · intro hlast
    refine ⟨?_, callbacks_prevent e⟩
    rw [hrun]
    simp only [_focusNextNode, hscan]
    rw [if_neg (by omega)]

theorem sample_focusedAt : FocusedAt sampleTraversal 3 3 := by
  refine ⟨⟨⟨3, 2⟩, rfl, rfl⟩, ?_⟩
  intro j hj entry hentry
  interval_cases j <;> simp [sampleTraversal] at hentry <;> subst hentry <;> decide

theorem arrowDown_focuses_next_witness :
    FocusedAt sampleTraversal 3 3 ∧
    _onKeyDown 0 { sampleProps with focused := some 3 } sampleTraversal
        { key := Key.ArrowDown } []
      = Outcome.done [Call.preventDefault, Call.stopPropagation,
          Call.scrollNodeIntoView 4 (some AlignTo.bottom), Call.onFocus (some 4)] ∧
    ∀ next, sampleTraversal[3 + 1]? = some next →
      _onKeyDown 0 { sampleProps with focused := some 3 } sampleTraversal
          { key := Key.ArrowDown } []
        = Outcome.done (_preventArrowKeyScrolling { key := Key.ArrowDown } [] ++
            [Call.scrollNodeIntoView next.item (some AlignTo.bottom),
              Call.onFocus (some next.item)]) ∧
      callbacks (_preventArrowKeyScrolling { key := Key.ArrowDown } [] ++
            [Call.scrollNodeIntoView next.item (some AlignTo.bottom),
              Call.onFocus (some next.item)])
        = [Call.onFocus (some next.item)] :=
  ⟨sample_focusedAt, by decide,
    (arrowDown_focuses_next 0 { sampleProps with focused := some 3 } sampleTraversal
      { key := Key.ArrowDown } 3 3 rfl rfl ⟨rfl, rfl, rfl, rfl⟩ rfl sample_focusedAt).1⟩

theorem callbacks_focus (e : KeyEvent) (item : Item) (alignTo : Option AlignTo) :
    callbacks (_preventArrowKeyScrolling e [] ++
      [Call.scrollNodeIntoView item alignTo, Call.onFocus (some item)])
      = [Call.onFocus (some item)] := by
  have := callbacks_prevent e
  unfold callbacks at this ⊢
  rw [List.filter_append, this]
  simp [Call.isCallback]

theorem focusPrevNode_at (props : Props) (traversal : List Entry) (log : List Call)
    (f : Item) (i : Nat) (hf : props.focused = some f) (hcb : props.onFocus = true)
    (hat : FocusedAt traversal f i) :
    (∀ before, 0 < i → traversal[i - 1]? = some before →
      _focusPrevNode props traversal log
        = Outcome.done (log ++ [Call.scrollNodeIntoView before.item (some AlignTo.top),
            Call.onFocus (some before.item)])) ∧
    (i = 0 → _focusPrevNode props traversal log = Outcome.done log) := by
  have hscan := prevScan_first f traversal none i hat
  rw [← hf] at hscan
  constructor
  · intro before hpos hbefore
    obtain ⟨j, rfl⟩ : ∃ j, i = j + 1 := ⟨i - 1, by omega⟩
    simp only [Nat.add_sub_cancel] at hbefore
    simp only [hbefore, Option.map_some'] at hscan
    simp only [_focusPrevNode, hscan, _focus, hcb, Bool.not_false, if_true,
      List.append_assoc, List.singleton_append]
  · intro hi
    subst hi
    simp only at hscan
    simp only [_focusPrevNode, hscan]

/-- C13. For every traversal and focused item `f` whose index in it is `i` (the
first entry that is `f`), an ArrowUp key press without modifiers, with `onFocus`
supplied and no call logged before: when `i > 0` it scrolls to and calls
`onFocus` on `traversal[i-1].item`, and that is the only callback invoked; when
`i = 0` it invokes no callback. -/
theorem arrowUp_focuses_previous (fuel : Nat) (props : Props) (traversal : List Entry)
    (e : KeyEvent) (f : Item) (i : Nat) (hf : props.focused = some f)
    (hkey : e.key = Key.ArrowUp) (hmod : NoModifier e) (hcb : props.onFocus = true)
    (hat : FocusedAt traversal f i) :
    (∀ before, 0 < i → traversal[i - 1]? = some before →
      _onKeyDown fuel props traversal e []
        = Outcome.done (_preventArrowKeyScrolling e [] ++
            [Call.scrollNodeIntoView before.item (some AlignTo.top),
              Call.onFocus (some before.item)]) ∧
      callbacks (_preventArrowKeyScrolling e [] ++
            [Call.scrollNodeIntoView before.item (some AlignTo.top),
              Call.onFocus (some before.item)])
        = [Call.onFocus (some before.item)]) ∧
    (i = 0 →
      _onKeyDown fuel props traversal e [] = Outcome.done (_preventArrowKeyScrolling e []) ∧
      callbacks (_preventArrowKeyScrolling e []) = []) := by
  have hrun := onKeyDown_unmodified fuel props traversal e [] f hf hmod
  rw [hkey] at hrun
  simp only at hrun
  obtain ⟨h1, h2⟩ := focusPrevNode_at props traversal (_preventArrowKeyScrolling e []) f i
    hf hcb hat
  constructor
  · intro before hpos hbefore
    exact ⟨by rw [hrun]; exact h1 before hpos hbefore, callbacks_focus e _ _⟩
  · intro hi
    exact ⟨by rw [hrun]; exact h2 hi, callbacks_prevent e⟩

theorem arrowUp_focuses_previous_witness :
    FocusedAt sampleTraversal 3 3 ∧
    _onKeyDown 0 { sampleProps with focused := some 3 } sampleTraversal
        { key := Key.ArrowUp } []
      = Outcome.done [Call.preventDefault, Call.stopPropagation,
          Call.scrollNodeIntoView 1 (some AlignTo.top), Call.onFocus (some 1)] ∧
    _onKeyDown 0 { sampleProps with focused := some 0 } sampleTraversal
        { key := Key.ArrowUp } []
      = Outcome.done [Call.preventDefault, Call.stopPropagation] ∧
    ∀ before, 0 < 3 → sampleTraversal[3 - 1]? = some before →
      _onKeyDown 0 { sampleProps with focused := some 3 } sampleTraversal
          { key := Key.ArrowUp } []
        = Outcome.done (_preventArrowKeyScrolling { key := Key.ArrowUp } [] ++
            [Call.scrollNodeIntoView before.item (some AlignTo.top),
              Call.onFocus (some before.item)]) ∧
      callbacks (_preventArrowKeyScrolling { key := Key.ArrowUp } [] ++
            [Call.scrollNodeIntoView before.item (some AlignTo.top),
              Call.onFocus (some before.item)])
        = [Call.onFocus (some before.item)] :=
  ⟨sample_focusedAt, by decide, by decide,
    (arrowUp_focuses_previous 0 { sampleProps with focused := some 3 } sampleTraversal
      { key := Key.ArrowUp } 3 3 rfl rfl ⟨rfl, rfl, rfl, rfl⟩ rfl sample_focusedAt).1⟩

theorem prevent_arrow_same (e : KeyEvent) (k : Key) (log : List Call)
    (he : e.key = Key.ArrowUp ∨ e.key = Key.ArrowDown ∨ e.key = Key.ArrowLeft ∨
      e.key = Key.ArrowRight)
    (hk : k = Key.ArrowUp ∨ k = Key.ArrowDown ∨ k = Key.ArrowLeft ∨ k = Key.ArrowRight) :
    _preventArrowKeyScrolling { e with key := k } log = _preventArrowKeyScrolling e log := by
  unfold _preventArrowKeyScrolling
  rcases he with h | h | h | h <;> rcases hk with h' | h' | h' | h' <;> simp only [h, h']

/-- C14. For every focused item `f`, an ArrowLeft key press without modifiers,
with `onFocus` and `onCollapse` supplied and no call logged before, does exactly
one of three things: if `f` is expanded and expandable it calls `onCollapse(f)`
and no other callback; otherwise, if `getParent(f)` is an item, it scrolls to
and calls `onFocus` on that parent and no other callback; otherwise it does
exactly what an ArrowUp press does on the same state. -/
theorem arrowLeft_cases (fuel : Nat) (props : Props) (traversal : List Entry)
    (e : KeyEvent) (f : Item) (hf : props.focused = some f)
    (hkey : e.key = Key.ArrowLeft) (hmod : NoModifier e) (hfocus : props.onFocus = true)
    (hcollapse : props.onCollapse = true) :
    (props.isExpanded f = true ∧ _nodeIsExpandable props f = true →
      _onKeyDown fuel props traversal e []
        = Outcome.done (_preventArrowKeyScrolling e [] ++ [Call.onCollapse f]) ∧
      callbacks (_preventArrowKeyScrolling e [] ++ [Call.onCollapse f])
        = [Call.onCollapse f]) ∧
    (¬ (props.isExpanded f = true ∧ _nodeIsExpandable props f = true) →
      ∀ parent, props.getParent f = some parent →
        _onKeyDown fuel props traversal e []
          = Outcome.done (_preventArrowKeyScrolling e [] ++
              [Call.scrollNodeIntoView parent (some AlignTo.top),
                Call.onFocus (some parent)]) ∧
        callbacks (_preventArrowKeyScrolling e [] ++
              [Call.scrollNodeIntoView parent (some AlignTo.top),
                Call.onFocus (some parent)])
          = [Call.onFocus (some parent)]) ∧
    (¬ (props.isExpanded f = true ∧ _nodeIsExpandable props f = true) →
      props.getParent f = none →
        _onKeyDown fuel props traversal e []
          = _onKeyDown fuel props traversal { e with key := Key.ArrowUp } []) := by
  have hrun := onKeyDown_unmodified fuel props traversal e [] f hf hmod
  rw [hkey] at hrun
  simp only at hrun
  refine ⟨?_, ?_, ?_⟩
  · rintro ⟨h1, h2⟩
    refine ⟨?_, ?_⟩
    · rw [hrun]
      simp only [h1, h2, Bool.and_self, if_true, _onCollapse, hcollapse]
    · have := callbacks_prevent e
      unfold callbacks at this ⊢
      rw [List.filter_append, this]
      simp [Call.isCallback]
  · intro hnot parent hparent
    refine ⟨?_, callbacks_focus e _ _⟩
    rw [hrun, if_neg (by simpa using hnot)]
    simp only [_focusParentNode, hparent, _focus, hfocus, Bool.not_false, if_true,
      List.append_assoc, List.singleton_append]
  · intro hnot hparent
    rw [hrun, if_neg (by simpa using hnot)]
    have hup := onKeyDown_unmodified fuel props traversal { e with key := Key.ArrowUp } [] f hf
      hmod
    simp only at hup
    rw [hup, prevent_arrow_same e Key.ArrowUp [] (by simp [hkey]) (by simp)]
    simp only [_focusParentNode, hparent]

theorem arrowLeft_cases_witness :
    _onKeyDown 0 { sampleProps with focused := some 1 } sampleTraversal
        { key := Key.ArrowLeft } []
      = Outcome.done [Call.preventDefault, Call.stopPropagation, Call.onCollapse 1] ∧
    _onKeyDown 0 { sampleProps with focused := some 3 } sampleTraversal
        { key := Key.ArrowLeft } []
      = Outcome.done [Call.preventDefault, Call.stopPropagation,
          Call.scrollNodeIntoView 1 (some AlignTo.top), Call.onFocus (some 1)] ∧
    (sampleProps.isExpanded 1 = true ∧
        _nodeIsExpandable { sampleProps with focused := some 1 } 1 = true →
      _onKeyDown 0 { sampleProps with focused := some 1 } sampleTraversal
          { key := Key.ArrowLeft } []
        = Outcome.done (_preventArrowKeyScrolling { key := Key.ArrowLeft } [] ++
            [Call.onCollapse 1]) ∧
      callbacks (_preventArrowKeyScrolling { key := Key.ArrowLeft } [] ++ [Call.onCollapse 1])
        = [Call.onCollapse 1]) :=
  ⟨by decide, by decide,
    (arrowLeft_cases 0 { sampleProps with focused := some 1 } sampleTraversal
      { key := Key.ArrowLeft } 1 rfl rfl ⟨rfl, rfl, rfl, rfl⟩ rfl rfl).1⟩

/-- C15. For every focused item `f`, an ArrowRight key press without modifiers,
with `onExpand` supplied and no call logged before, calls `onExpand(f)` and no
other callback when `f` is expandable and not expanded, and otherwise does
exactly what an ArrowDown press does on the same state; `f` is expandable when
`props.isExpandable(f)` is true or, that prop being absent, when
`getChildren(f)` is not empty. -/
theorem arrowRight_cases (fuel : Nat) (props : Props) (traversal : List Entry)
    (e : KeyEvent) (f : Item) (hf : props.focused = some f)
    (hkey : e.key = Key.ArrowRight) (hmod : NoModifier e) (hexpand : props.onExpand = true) :
    (_nodeIsExpandable props f = true ∧ props.isExpanded f = false →
      _onKeyDown fuel props traversal e []
        = Outcome.done (_preventArrowKeyScrolling e [] ++ [Call.onExpand f]) ∧
      callbacks (_preventArrowKeyScrolling e [] ++ [Call.onExpand f]) = [Call.onExpand f]) ∧
    (¬ (_nodeIsExpandable props f = true ∧ props.isExpanded f = false) →
      _onKeyDown fuel props traversal e []
        = _onKeyDown fuel props traversal { e with key := Key.ArrowDown } []) ∧
    (∀ isExpandable, props.isExpandable = some isExpandable →
      _nodeIsExpandable props f = isExpandable f) ∧
    (props.isExpandable = none →
      (_nodeIsExpandable props f = true ↔ props.getChildren f ≠ [])) := by
  have hrun := onKeyDown_unmodified fuel props traversal e [] f hf hmod
  rw [hkey] at hrun
  simp only at hrun
  refine ⟨?_, ?_, ?_, ?_⟩
  · rintro ⟨h1, h2⟩
    refine ⟨?_, ?_⟩
    · rw [hrun]
      simp only [h1, h2, Bool.not_false, Bool.and_self, if_true, _onExpand, hexpand,
        Bool.false_eq_true, if_false]
    · have := callbacks_prevent e
      unfold callbacks at this ⊢
      rw [List.filter_append, this]
      simp [Call.isCallback]
  · intro hnot
    rw [hrun, if_neg (by simpa using hnot)]
    have hdown := onKeyDown_unmodified fuel props traversal { e with key := Key.ArrowDown } []
      f hf hmod
    simp only at hdown
    rw [hdown, prevent_arrow_same e Key.ArrowDown [] (by simp [hkey]) (by simp)]
  · intro g hg
    simp only [_nodeIsExpandable, hg]
  · intro hnone
    simp only [_nodeIsExpandable, hnone, ne_eq, List.length_eq_zero, decide_eq_true_eq]

theorem arrowRight_cases_witness :
    _onKeyDown 0 { sampleProps with focused := some 1, isExpanded := fun _ => false }
        sampleTraversal { key := Key.ArrowRight } []
      = Outcome.done [Call.preventDefault, Call.stopPropagation, Call.onExpand 1] ∧
    _onKeyDown 0 { sampleProps with focused := some 3 } sampleTraversal
        { key := Key.ArrowRight } []
      = Outcome.done [Call.preventDefault, Call.stopPropagation,
          Call.scrollNodeIntoView 4 (some AlignTo.bottom), Call.onFocus (some 4)] ∧
    (¬ (_nodeIsExpandable { sampleProps with focused := some 3 } 3 = true ∧
        sampleProps.isExpanded 3 = false) →
      _onKeyDown 0 { sampleProps with focused := some 3 } sampleTraversal
          { key := Key.ArrowRight } []
        = _onKeyDown 0 { sampleProps with focused := some 3 } sampleTraversal
            { key := Key.ArrowDown } []) :=
  ⟨by decide, by decide,
    (arrowRight_cases 0 { sampleProps with focused := some 3 } sampleTraversal
      { key := Key.ArrowRight } 3 rfl rfl ⟨rfl, rfl, rfl, rfl⟩ rfl).2.1⟩

/-- C16, as amended. For every traversal whose first entry is the focused item
`f`, when `f` is a collapsed leaf with no parent (`isExpanded(f)` false, `f` not
expandable, `getParent(f)` null), an ArrowLeft key press without modifiers
invokes no callback: focus is unchanged. -/
theorem arrowLeft_on_first_leaf_is_noop (fuel : Nat) (props : Props)
    (traversal : List Entry) (e : KeyEvent) (f : Item) (hf : props.focused = some f)
    (hkey : e.key = Key.ArrowLeft) (hmod : NoModifier e)
    (hcollapsed : props.isExpanded f = false) (hleaf : _nodeIsExpandable props f = false)
    (hparent : props.getParent f = none)
    (hfirst : ∃ entry, traversal[0]? = some entry ∧ entry.item = f) :
    _onKeyDown fuel props traversal e [] = Outcome.done (_preventArrowKeyScrolling e []) ∧
    callbacks (_preventArrowKeyScrolling e []) = [] := by
  have hrun := onKeyDown_unmodified fuel props traversal e [] f hf hmod
  rw [hkey] at hrun
  simp only at hrun
  refine ⟨?_, callbacks_prevent e⟩
  rw [hrun]
  have hscan := prevScan_first f traversal none 0
    ⟨hfirst, fun j hj => absurd hj (Nat.not_lt_zero j)⟩
  rw [← hf] at hscan
  simp only at hscan
  simp only [hcollapsed, hleaf, Bool.and_self, Bool.false_eq_true, if_false,
    _focusParentNode, hparent, _focusPrevNode, hscan]

theorem arrowLeft_on_first_leaf_is_noop_witness :
    sampleProps.isExpanded 7 = false ∧
    _nodeIsExpandable { sampleProps with focused := some 7 } 7 = false ∧
    sampleProps.getParent 7 = none ∧
    (∃ entry, ([⟨7, 0⟩, ⟨0, 0⟩] : List Entry)[0]? = some entry ∧ entry.item = 7) ∧
    _onKeyDown 0 { sampleProps with focused := some 7 } [⟨7, 0⟩, ⟨0, 0⟩]
        { key := Key.ArrowLeft } []
      = Outcome.done (_preventArrowKeyScrolling { key := Key.ArrowLeft } []) ∧
    callbacks (_preventArrowKeyScrolling { key := Key.ArrowLeft } []) = [] :=
  ⟨rfl, rfl, rfl, ⟨⟨7, 0⟩, rfl, rfl⟩,
    arrowLeft_on_first_leaf_is_noop 0 { sampleProps with focused := some 7 }
      [⟨7, 0⟩, ⟨0, 0⟩] { key := Key.ArrowLeft } 7 rfl rfl ⟨rfl, rfl, rfl, rfl⟩ rfl rfl rfl
      ⟨⟨7, 0⟩, rfl, rfl⟩⟩

/-- C16, counterexample. In the sample forest the root 4 is a collapsed leaf
with no parent, at index 4 of the traversal; an ArrowLeft key press with 4
focused calls `onFocus` on item 3, the entry before it. -/
theorem arrowLeft_on_later_leaf_moves_focus :
    sampleProps.isExpanded 4 = false ∧
    _nodeIsExpandable { sampleProps with focused := some 4 } 4 = false ∧
    sampleProps.getParent 4 = none ∧
    _dfsFromRoots 3 sampleProps none = Outcome.done sampleTraversal ∧
    _onKeyDown 0 { sampleProps with focused := some 4 } sampleTraversal
        { key := Key.ArrowLeft } []
      = Outcome.done [Call.preventDefault, Call.stopPropagation,
          Call.scrollNodeIntoView 3 (some AlignTo.top), Call.onFocus (some 3)] := by
  refine ⟨rfl, rfl, rfl, ?_, ?_⟩ <;> decide

/-- C17. For every key and every tree state, when a modifier key (alt, ctrl,
shift or meta) is held, or when `props.focused` is null or undefined,
`_onKeyDown` makes no call at all: no `onFocus`, `onExpand`, `onCollapse` or
`onActivate`, and no `preventDefault`. -/
theorem onKeyDown_ignored (fuel : Nat) (props : Props) (traversal : List Entry)
    (e : KeyEvent) (log : List Call)
    (h : props.focused = none ∨ e.altKey = true ∨ e.ctrlKey = true ∨ e.shiftKey = true ∨
      e.metaKey = true) :
    _onKeyDown fuel props traversal e log = Outcome.done log := by
  unfold _onKeyDown
  cases hf : props.focused with
  | none => rfl
  | some f =>
    rcases h with h | h | h | h | h
    · rw [hf] at h; cases h
    all_goals simp [h]

theorem onKeyDown_ignored_witness :
    (sampleProps.focused = none ∨ ({ key := Key.ArrowDown, ctrlKey := true } : KeyEvent).altKey
        = true ∨
      ({ key := Key.ArrowDown, ctrlKey := true } : KeyEvent).ctrlKey = true ∨
      ({ key := Key.ArrowDown, ctrlKey := true } : KeyEvent).shiftKey = true ∨
      ({ key := Key.ArrowDown, ctrlKey := true } : KeyEvent).metaKey = true) ∧
    _onKeyDown 0 { sampleProps with focused := some 3 } sampleTraversal
        { key := Key.ArrowDown, ctrlKey := true } []
      = Outcome.done [] :=
  ⟨Or.inl rfl,
    onKeyDown_ignored 0 { sampleProps with focused := some 3 } sampleTraversal
      { key := Key.ArrowDown, ctrlKey := true } [] (Or.inr (Or.inr (Or.inl rfl)))⟩

theorem focusPrevNode_done (props : Props) (traversal : List Entry) (log : List Call) :
    ∃ log', _focusPrevNode props traversal log = Outcome.done log' := by
  unfold _focusPrevNode
  cases prevScan props.focused traversal none with
  | none => exact ⟨_, rfl⟩
  | some prev => exact ⟨_, rfl⟩

theorem focusNextNode_done (props : Props) (traversal : List Entry) (log : List Call) :
    ∃ log', _focusNextNode props traversal log = Outcome.done log' := by
  unfold _focusNextNode
  by_cases hlt : nextScan props.focused traversal 0 + 1 < traversal.length
  · simp only [hlt, if_true]
    rw [List.getElem?_eq_getElem hlt]
    exact ⟨_, rfl⟩
  · simp only [hlt, if_false]
    exact ⟨_, rfl⟩

/-- C18, the part that holds. For every traversal, the empty one included, and
every focused item, in the traversal or not, the keys ArrowUp, ArrowDown,
ArrowLeft, ArrowRight and Enter (and any key that is not Home or End) complete
without an error, and so do Home and End when the traversal is not empty. -/
theorem onKeyDown_completes (fuel : Nat) (props : Props) (traversal : List Entry)
    (e : KeyEvent) (log : List Call)
    (h : (e.key ≠ Key.Home ∧ e.key ≠ Key.End) ∨ traversal ≠ []) :
    ∃ log', _onKeyDown fuel props traversal e log = Outcome.done log' := by
  unfold _onKeyDown
  cases hf : props.focused with
  | none => exact ⟨_, rfl⟩
  | some f =>
    cases hmod : (e.altKey || e.ctrlKey || e.shiftKey || e.metaKey) with
    | true => simp only [if_true]; exact ⟨_, rfl⟩
    | false =>
      simp only [Bool.false_eq_true, if_false]
      cases hk : e.key with
      | ArrowUp => exact focusPrevNode_done _ _ _
      | ArrowDown => exact focusNextNode_done _ _ _
      | ArrowLeft =>
        simp only
        by_cases hc : (props.isExpanded f && _nodeIsExpandable props f) = true
        · rw [if_pos hc]; exact ⟨_, rfl⟩
        · rw [if_neg hc]
          unfold _focusParentNode
          cases props.getParent f with
          | none => exact focusPrevNode_done _ _ _
          | some parent => exact ⟨_, rfl⟩
      | ArrowRight =>
        simp only
        by_cases hc : (_nodeIsExpandable props f && !props.isExpanded f) = true
        · rw [if_pos hc]
          unfold _onExpand
          by_cases hcb : props.onExpand = true
          · simp only [hcb, if_true, Bool.false_eq_true, if_false]; exact ⟨_, rfl⟩
          · simp only [hcb, if_false]; exact ⟨_, rfl⟩
        · rw [if_neg hc]; exact focusNextNode_done _ _ _
      | Home =>
        simp only
        rcases h with h | h
        · exact absurd hk h.1
        · cases traversal with
          | nil => exact absurd rfl h
          | cons a l =>
            simp only [_focusFirstNode, List.getElem?_cons_zero]
            exact ⟨_, rfl⟩
      | End =>
        simp only [_focusLastNode]
        rcases h with h | h
        · exact absurd hk h.2
        · cases hl : traversal.length with
          | zero => exact absurd (List.length_eq_zero.mp hl) h
          | succ n =>
            simp only
            rw [List.getElem?_eq_getElem (by omega)]
            exact ⟨_, rfl⟩
      | Enter => exact ⟨_, rfl⟩
      | other => exact ⟨_, rfl⟩

/-- C18, the failing input. With the empty traversal of a freshly constructed
component in `this.state` and an item focused, the Home key and the End key each
end in a `TypeError` (`traversal[0]` and `traversal[-1]` are `undefined`), where
ArrowUp and ArrowDown on the same state are silent no-ops. -/
theorem home_end_on_empty_traversal_throw :
    _onKeyDown 0 { sampleProps with focused := some 0 } [] { key := Key.Home } []
      = Outcome.typeError ∧
    _onKeyDown 0 { sampleProps with focused := some 0 } [] { key := Key.End } []
      = Outcome.typeError ∧
    _onKeyDown 0 { sampleProps with focused := some 0 } [] { key := Key.ArrowUp } []
      = Outcome.done [Call.preventDefault, Call.stopPropagation] ∧
    _onKeyDown 0 { sampleProps with focused := some 0 } [] { key := Key.ArrowDown } []
      = Outcome.done [Call.preventDefault, Call.stopPropagation] := by
  refine ⟨?_, ?_, ?_, ?_⟩ <;> decide

end Tree
